import Mathlib

namespace EspoBundler

/-- Boolean membership test on lists of strings, mirroring JavaScript `Array.includes`. -/
def memb (x : String) (l : List String) : Bool := decide (x ∈ l)

/-- Error message thrown by `Bundler.#sortFiles` when a module name resolves to no file
and no library amdId (src/unnamed/part_001, line 311). -/
def canNotObtainMsg (name : String) : String :=
  "Can't obtain " ++ name ++ ". Might be missing in lookupPatterns."

/-- Dependency id carries a plugin marker: JS `depName.includes('!')`.
Implemented on the character list so that it evaluates in the kernel. -/
def hasBang (d : String) : Bool := decide ('!' ∈ d.data)

/-- The four characters of the plugin marker `lib!`. -/
def libMark : List Char := ['l', 'i', 'b', '!']

/-- Strips the `lib!` plugin marker only, as in `isLib` / `isDependentOnMatched`
(src/unnamed/part_001, lines 394-416): other plugin markers are not stripped.
JS: `if (depName.startsWith('lib!')) depName = depName.slice(4)`. -/
def stripLib (d : String) : String :=
  if d.data.take 4 = libMark then String.mk (d.data.drop 4) else d

example : stripLib ("lib!jquery") = "jquery" := by decide

example : stripLib ("text!foo/bar") = "text!foo/bar" := by decide

example : hasBang ("text!foo/bar") = true := by decide

example : hasBang ("foo/bar") = false := by decide

example : memb ("a") (["b", "a"]) = true := by decide

/-- Association-list lookup (JS object property read `map[name]`). -/
def alookup {α : Type} : List (String × α) → String → Option α
  | [], _ => none
  | (k, v) :: t, n => if k = n then some v else alookup t n

/-- Association-list write (JS object property assignment `map[name] = v`):
an existing key keeps its position, a new key is appended. -/
def assocSet {α : Type} : List (String × α) → String → α → List (String × α)
  | [], k, v => [(k, v)]
  | (k', v') :: t, k, v => if k' = k then (k, v) :: t else (k', v') :: assocSet t k v

/-- The dependency graph `moduleDepsMap`: module name to raw dependency ids. -/
abbrev DepsMap : Type := List (String × List String)

/-- JS `map[name] || []` (src/unnamed/part_001, lines 333 and 373). -/
def lookupDeps (map : DepsMap) (name : String) : List String :=
  (alookup map name).getD []

/-- The predicate `isLib` of `#buildTreeItem` (lines 394-400): strip a `lib!`
marker, then test membership in `ignoreLibs`. -/
def isLib (il : List String) (d : String) : Bool := memb (stripLib d) il

/-- The predicate `isDependentOnMatched` of `#buildTreeItem` (lines 406-416):
false when no `dependentOn` list is configured, else strip `lib!` and test
membership. `none` models the JS `null`; `some []` models a configured empty
array (truthy in JS). -/
def depMatched (dOn : Option (List String)) (d : String) : Bool :=
  match dOn with
  | none => false
  | some l => memb (stripLib d) l

/-- Mutable state threaded through `#buildTreeItem`: the `depthMap` object and
the `discardedModules` / `pickedModules` arrays. -/
structure WalkState where
  depthMap : String → Option Nat
  discarded : List String
  picked : List String

/-- State at the start of `#sortFiles` (lines 256-261). -/
def initWalkState : WalkState :=
  { depthMap := fun _ => none, discarded := [], picked := [] }

/-- Depth update of `#buildTreeItem` (lines 379-384): a missing entry is set to
`depth`; an existing entry is raised when `depth` is larger. -/
def updateDepth (dm : String → Option Nat) (module : String) (depth : Nat) :
    String → Option Nat :=
  fun x =>
    if x = module then
      some (match dm module with
            | none => depth
            | some d0 => if d0 < depth then depth else d0)
    else dm x

/-- Discard propagation (lines 420-422): push every path element not already
present onto `discardedModules`. -/
def addDiscard (path : List String) (st : WalkState) : WalkState :=
  { st with discarded := st.discarded ++ path.filter (fun x => !memb x st.discarded) }

/-- Pick propagation (lines 428-430): push every path element not already
present onto `pickedModules`. -/
def addPicked (path : List String) (st : WalkState) : WalkState :=
  { st with picked := st.picked ++ path.filter (fun x => !memb x st.picked) }

/-- First dependency loop of `#buildTreeItem` (lines 418-432): scanning the
dependency list in order, the first excluded-lib dependency discards the whole
path and aborts (Bool result `true`); a `dependentOn` match picks the path and
the scan continues. -/
def checkDeps (il : List String) (dOn : Option (List String)) (path : List String) :
    List String → WalkState → WalkState × Bool
  | [], st => (st, false)
  | d :: ds, st =>
    if isLib il d then (addDiscard path st, true)
    else checkDeps il dOn path ds (if depMatched dOn d then addPicked path st else st)

/-- Second dependency loop of `#buildTreeItem` (lines 434-450): sequentially
run `step` (the recursive descent) on every non-lib dependency, threading the
state; `step` is instantiated with `buildTreeItem` at one less fuel. -/
def walkDepsWith (il : List String) (step : String → WalkState → Option WalkState) :
    List String → WalkState → Option WalkState
  | [], st => some st
  | d :: ds, st =>
    if isLib il d then walkDepsWith il step ds st
    else
      match step d st with
      | none => none
      | some st' => walkDepsWith il step ds st'

/-- The recursive walker `Bundler.#buildTreeItem` (src/unnamed/part_001, lines
361-451). The JS function has no termination guard, so the model carries fuel:
`none` means the recursion exceeded the given depth budget (the JS analogue is
non-termination / stack exhaustion). The path is copied and extended with the
current module before any state change, exactly as `path = [].concat(path);
path.push(module)`. -/
def buildTreeItem (map : DepsMap) (il : List String) (dOn : Option (List String)) :
    Nat → String → Nat → List String → WalkState → Option WalkState
  | 0, _, _, _, _ => none
  | fuel + 1, module, depth, path0, st =>
    let deps := lookupDeps map module
    let path := path0 ++ [module]
    let st1 : WalkState := { st with depthMap := updateDepth st.depthMap module depth }
    if deps.isEmpty then some st1
    else
      let r := checkDeps il dOn path deps st1
      if r.2 then some r.1
      else walkDepsWith il (fun d t => buildTreeItem map il dOn fuel d (depth + 1) path t) deps r.1

/-- The loop of `#sortFiles` (lines 263-273) walking every working-set module
as a root at depth 0 with an empty path. -/
def walkAll (map : DepsMap) (il : List String) (dOn : Option (List String)) (fuel : Nat) :
    List String → WalkState → Option WalkState
  | [], st => some st
  | m :: ms, st =>
    match buildTreeItem map il dOn fuel m 0 [] st with
    | none => none
    | some st' => walkAll map il dOn fuel ms st'

/-- Inner loop of `Bundler.#obtainAllDeps` (lines 335-345): push each
dependency not yet present, and recurse (via `step`) into every dependency not
carrying a plugin marker — the recursion is NOT guarded by the membership
test. -/
def obtainDepsWith (step : String → List String → Option (List String)) :
    List String → List String → Option (List String)
  | [], list => some list
  | d :: ds, list =>
    let list1 := if memb d list then list else list ++ [d]
    if hasBang d then obtainDepsWith step ds list1
    else
      match step d list1 with
      | none => none
      | some list2 => obtainDepsWith step ds list2

/-- The closure builder `Bundler.#obtainAllDeps` (lines 328-348), with fuel for
the unguarded recursion. -/
def obtainAllDeps (map : DepsMap) : Nat → String → List String → Option (List String)
  | 0, _, _ => none
  | fuel + 1, name, list =>
    obtainDepsWith (fun d l => obtainAllDeps map fuel d l) (lookupDeps map name) list

/-- Loop of `#sortFiles` lines 236-250: for each target module take its full
closure (with a fresh list), then merge into `allDepModules` (everything not a
target and not yet present) and `depModules` (additionally dropping
plugin-marked ids). -/
def depListsGo (map : DepsMap) (fuel : Nat) (targets : List String) :
    List String → List String × List String → Option (List String × List String)
  | [], acc => some acc
  | n :: ns, (allAcc, depAcc) =>
    match obtainAllDeps map fuel n [] with
    | none => none
    | some deps =>
      let allAcc' := allAcc ++ deps.filter (fun d => !memb d targets && !memb d allAcc)
      let depAcc' := depAcc ++
        deps.filter (fun d => !hasBang d && !memb d targets && !memb d depAcc)
      depListsGo map fuel targets ns (allAcc', depAcc')

/-- Computes `(allDepModules, depModules)` for the target list. -/
def depLists (map : DepsMap) (fuel : Nat) (targets : List String) :
    Option (List String × List String) :=
  depListsGo map fuel targets targets ([], [])

/-- Depth read used by the sort comparator (`depthMap[v]`, line 280). In every
reachable state each sorted module has an entry, so the default is invisible. -/
def depthD (dm : String → Option Nat) (m : String) : Nat := (dm m).getD 0

/-- Stable insertion of one element into a depth-descending list: the new,
later-discovered element goes after every element of depth greater or equal,
modelling the stable JS `Array.sort((v1, v2) => depthMap[v2] - depthMap[v1])`. -/
def insertByDepth (dm : String → Option Nat) (x : String) : List String → List String
  | [] => [x]
  | y :: ys => if depthD dm y < depthD dm x then x :: y :: ys else y :: insertByDepth dm x ys

/-- Stable sort by depth descending (line 279-281). -/
def sortByDepthDesc (dm : String → Option Nat) (l : List String) : List String :=
  l.foldl (fun acc x => insertByDepth dm x acc) []

/-- Library registry entry (the fields of `params.libs` used by the bundler). -/
structure Lib where
  amdId : Option String
  bundle : Bool
deriving DecidableEq

/-- JS `item.amdId && item.amdId === name` over the libs list (lines 303-309). -/
def libMatches (libs : List Lib) (name : String) : Bool :=
  libs.any (fun l => l.amdId == some name)

/-- Module-name-to-file resolution of `#sortFiles` (lines 294-314): a module
with no file is silently skipped when `mapDependencies` is set; a module with
a file yields the file; a remaining fileless name matching a lib amdId is
skipped; otherwise the run aborts (JS `throw Error(...)`, modelled by
`Except.error` carrying the message). The `null` entries the JS filters out
afterwards are simply not emitted. -/
def resolvePaths (fileMap : String → Option String) (mapDeps : Bool) (libs : List Lib) :
    List String → Except String (List String)
  | [] => .ok []
  | n :: ns =>
    if (fileMap n).isNone && mapDeps then resolvePaths fileMap mapDeps libs ns
    else
      match fileMap n with
      | some f => (resolvePaths fileMap mapDeps libs ns).map (fun ps => f :: ps)
      | none =>
        if libMatches libs n then resolvePaths fileMap mapDeps libs ns
        else .error (canNotObtainMsg n)

/-- Collection of `directDepModules` over the final module list (lines
288-292): per module, append its raw dependencies not yet collected. -/
def collectDirect (map : DepsMap) (mods : List String) : List String :=
  mods.foldl (fun acc m => acc ++ (lookupDeps map m).filter (fun d => !memb d acc)) []

/-- The working module list of `#sortFiles` lines 252-254: targets plus
closure dependencies, minus the ignore modules. -/
def workingMods (targets depMods ignoreMods : List String) : List String :=
  (targets ++ depMods).filter (fun m => !memb m ignoreMods)

/-- The module list submitted to the sort, lines 275-281: the picked modules
when a `dependentOn` filter is configured, the working list otherwise. -/
def pickedOrAll (dOn : Option (List String)) (picked mods : List String) : List String :=
  match dOn with
  | some _ => picked
  | none => mods

/-- Result record of the chunk-resolution core, mirroring what `#sortFiles`
returns plus the final sorted module list (the JS local `modules` after line
285, from which both `modulePaths` and the bundle-level module list derive). -/
structure SortOutcome where
  files : List String
  modules : List String
  depModules : List String
  directDep : List String
  notBundled : List String
deriving DecidableEq

/-- The chunk-resolution core `Bundler.#sortFiles` (lines 189-321), abstracted
over the already-built module index (`map` = `moduleDepsMap`, `fileMap` =
`moduleFileMap`, `standalone` = `standalonePathList`, `targets` = the target
module names). Outer `none` = fuel exhausted (JS non-termination), inner
`Except.error` = the JS throw of line 311. -/
def sortFilesCore (fuel : Nat) (map : DepsMap) (fileMap : String → Option String)
    (standalone : List String) (targets : List String) (il ignoreMods : List String)
    (dOn : Option (List String)) (mapDeps : Bool) (libs : List Lib) :
    Option (Except String SortOutcome) :=
  match depLists map fuel targets with
  | none => none
  | some (allDep, depMods) =>
    let mods := workingMods targets depMods ignoreMods
    match walkAll map il dOn fuel mods initWalkState with
    | none => none
    | some st =>
      let mods3 := (sortByDepthDesc st.depthMap (pickedOrAll dOn st.picked mods)).filter
        (fun m => !memb m st.discarded)
      some ((resolvePaths fileMap mapDeps libs mods3).map (fun paths =>
        { files := standalone ++ paths
          modules := mods3
          depModules := allDep
          directDep := collectDirect map mods3
          notBundled := st.discarded }))

/-- External collaborators of §6 of the design (filesystem and source
analysis), abstracted: `nameOf` is the total `#obtainModuleName` (path to
module name), `depsOf` is the parsing part of `#obtainModuleData` (`none` =
not a recognized module, `some deps` = module with the given raw dependency
ids; the returned name is always `nameOf file`, as in the source), and
`content` is the rendered text of a file (the transpiled counterpart passed
through `#normalizeSourceFile`). -/
structure Env where
  nameOf : String → String
  depsOf : String → Option (List String)
  content : String → String

/-- Accumulator of the module-index loop of `#sortFiles` (lines 212-231). -/
structure IndexAcc where
  map : DepsMap
  fileMap : List (String × String)
  standalone : List String
  targetMods : List String

/-- One step of the module-index loop of `#sortFiles` (lines 212-231): a
non-module target file becomes a standalone path; a module file registers its
dependency list and file path under its name (JS object assignment: last
write wins) and, when it is a target, its name joins the target module list. -/
def buildIndexStep (env : Env) (targetFiles : List String) (acc : IndexAcc) (f : String) :
    IndexAcc :=
  match env.depsOf f with
  | none =>
    if memb f targetFiles then { acc with standalone := acc.standalone ++ [f] } else acc
  | some deps =>
    let n := env.nameOf f
    { acc with
        map := assocSet acc.map n deps
        fileMap := assocSet acc.fileMap n f
        targetMods := if memb f targetFiles then acc.targetMods ++ [n] else acc.targetMods }

/-- The module-index loop of `#sortFiles` (lines 212-231) over all lookup
files. -/
def buildIndex (env : Env) (allFiles targetFiles : List String) : IndexAcc :=
  allFiles.foldl (buildIndexStep env targetFiles)
    { map := [], fileMap := [], standalone := [], targetMods := [] }

/-- Computation of `ignoreLibs` in `Bundler.bundle` (lines 95-98): amdIds of
libs not marked for bundling, minus the ids named by `dependentOn`. -/
def ignoreLibsOf (libs : List Lib) (dOn : Option (List String)) : List String :=
  ((libs.filter (fun l => l.amdId.isSome && !l.bundle)).filterMap (fun l => l.amdId)).filter
    (fun id => !memb id (dOn.getD []))

/-- Result of one `Bundler.bundle` call (lines 123-130). -/
structure ChunkResult where
  contents : String
  files : List String
  modules : List String
  notBundled : List String
  depModules : List String
  directDep : List String
deriving DecidableEq

/-- The method `Bundler.bundle` (lines 82-131), abstracted over the globbing
collaborator: `targets` is the concatenated normalized file/pattern list
before the `ignoreFullPathFiles` filter of line 91, `lookup` is `allFiles`.
Contents are the concatenation of each sorted file's rendered text plus a
newline (line 116-117); the bundle-level module list maps files back to names
(line 119), and `directDependencyModules` is filtered against it (line 121). -/
def bundlerBundle (fuel : Nat) (env : Env) (libs : List Lib) (targets lookup : List String)
    (ignoreFullPathFiles : List String) (dOn : Option (List String)) (mapDeps : Bool) :
    Option (Except String ChunkResult) :=
  let fullPathFiles := targets.filter (fun f => !memb f ignoreFullPathFiles)
  let il := ignoreLibsOf libs dOn
  let idx := buildIndex env lookup fullPathFiles
  let ignoreMods := ignoreFullPathFiles.map env.nameOf
  match sortFilesCore fuel idx.map (fun n => alookup idx.fileMap n) idx.standalone
      idx.targetMods il ignoreMods dOn mapDeps libs with
  | none => none
  | some (.error e) => some (.error e)
  | some (.ok r) =>
    let mods := r.files.map env.nameOf
    some (.ok
      { contents := r.files.foldl (fun acc f => acc ++ env.content f ++ "\n") ("")
        files := r.files
        modules := mods
        notBundled := r.notBundled
        depModules := r.depModules
        directDep := r.directDep.filter (fun m => !memb m mods) })

/-- Per-chunk configuration consumed by `BundlerGeneral.#bundleChunk`, with
the globbing collaborator already applied (`targets` = globbed pattern
matches, `lookup` = globbed lookup-pattern matches). -/
structure ChunkCfg where
  name : String
  targets : List String
  lookup : List String
  dOn : Option (List String)
  mapDeps : Bool
  noDuplicates : Bool

/-- Running state of `BundlerGeneral.bundle` (lines 79-137) together with the
instance field `this.mainBundleFiles` (set in the constructor, line 67, and
overwritten by the main chunk, line 252). `filesAcc` is the local `files`
accumulator, and the remaining fields collect the per-chunk outputs and the
global bookkeeping maps. -/
structure RunSt where
  mainFiles : List String
  filesAcc : List String
  outFiles : List (String × List String)
  outModules : List (String × List String)
  outContents : List (String × String)
  moduleChunk : List (String × String)
  chunkDirect : List (String × List String)
deriving DecidableEq

/-- Fresh local state at the start of one `bundle()` invocation. Note that
`mainFiles` is NOT part of it: it lives on the instance. -/
def freshRun (mainFiles : List String) : RunSt :=
  { mainFiles := mainFiles, filesAcc := [], outFiles := [], outModules := [],
    outContents := [], moduleChunk := [], chunkDirect := [] }

/-- The chunk loop of `BundlerGeneral.bundle` (lines 94-137) combined with
`#bundleChunk` (lines 204-287): each chunk is bundled with an ignore list of
`this.mainBundleFiles`, extended by all previously accumulated files when the
chunk requests `noDuplicates`; the main (first) chunk overwrites
`this.mainBundleFiles` with its files; non-main chunks register their modules
in the module-to-chunk map. Template precompilation and the loader-mapping
text appended to the main chunk are outside the modelled claims and omitted. -/
def runChunks (fuel : Nat) (env : Env) (libs : List Lib) :
    List ChunkCfg → Bool → RunSt → Option (Except String RunSt)
  | [], _, st => some (.ok st)
  | c :: cs, isMain, st =>
    let ignore := st.mainFiles ++ (if c.noDuplicates then st.filesAcc else [])
    match bundlerBundle fuel env libs c.targets c.lookup ignore c.dOn c.mapDeps with
    | none => none
    | some (.error e) => some (.error e)
    | some (.ok r) =>
      let st' : RunSt :=
        { mainFiles := if isMain then r.files else st.mainFiles
          filesAcc := st.filesAcc ++ r.files
          outFiles := st.outFiles ++ [(c.name, r.files)]
          outModules := st.outModules ++ [(c.name, r.modules)]
          outContents := st.outContents ++ [(c.name, r.contents)]
          moduleChunk :=
            if isMain then st.moduleChunk
            else r.modules.foldl (fun mc m => assocSet mc m c.name) st.moduleChunk
          chunkDirect := st.chunkDirect ++ [(c.name, r.directDep)] }
      runChunks fuel env libs cs false st'

/-- Inner loop of the cross-chunk check (lines 143-155): collect, without
duplicates, the owning chunk of every direct dependency module present in the
global module-to-chunk map. -/
def collectOwners (moduleChunk : List (String × String)) (ds : List String) : List String :=
  ds.foldl
    (fun acc m =>
      match alookup moduleChunk m with
      | none => acc
      | some ch => if memb ch acc then acc else acc ++ [ch])
    []

/-- The cross-chunk check of `BundlerGeneral.bundle` (lines 139-166): for each
non-main chunk, collect the owning chunks (deduplicated, via the global
module-to-chunk map) of its direct dependency modules; a chunk with a
non-empty collection yields one warning entry naming it and those chunks. -/
def crossChunkWarnings (orderTail : List String)
    (chunkDirect : List (String × List String)) (moduleChunk : List (String × String)) :
    List (String × List String) :=
  orderTail.filterMap (fun name =>
    let chs := collectOwners moduleChunk ((alookup chunkDirect name).getD [])
    if chs.isEmpty then none else some (name, chs))

/-- One invocation of `BundlerGeneral.bundle` on an instance whose
`mainBundleFiles` field currently holds `inst` (an empty list right after
construction): runs the chunk loop on fresh local state and then the
cross-chunk check. -/
def runBundle (fuel : Nat) (env : Env) (libs : List Lib) (cfgs : List ChunkCfg)
    (inst : List String) : Option (Except String (RunSt × List (String × List String))) :=
  match runChunks fuel env libs cfgs true (freshRun inst) with
  | none => none
  | some (.error e) => some (.error e)
  | some (.ok st) =>
    some (.ok (st, crossChunkWarnings ((cfgs.map (fun c => c.name)).drop 1)
      st.chunkDirect st.moduleChunk))

/-- Pointwise growth of depth maps: present entries persist and never shrink. -/
def dmLe (d1 d2 : String → Option Nat) : Prop :=
  ∀ m k, d1 m = some k → ∃ k', d2 m = some k' ∧ k ≤ k'

/-- Growth order on walk states: the depth map grows pointwise and the
discarded / picked lists only gain members. -/
def StLe (s t : WalkState) : Prop :=
  dmLe s.depthMap t.depthMap ∧ (∀ x, x ∈ s.discarded → x ∈ t.discarded) ∧
    (∀ x, x ∈ s.picked → x ∈ t.picked)

/-- The key per-module invariant behind the dependency ordering: whenever `m`
holds depth `k` and none of its dependencies is an excluded lib, every
dependency of `m` holds a strictly larger depth. -/
def GoodAt (map : DepsMap) (il : List String) (st : WalkState) (m : String) (k : Nat) : Prop :=
  (∀ D, D ∈ lookupDeps map m → isLib il D = false) →
  ∀ D, D ∈ lookupDeps map m → ∃ e, st.depthMap D = some e ∧ k + 1 ≤ e

/-- Invariant: every walked module (one holding a depth entry) that has an
excluded-lib dependency is in the discarded list. -/
def LibDepDiscarded (map : DepsMap) (il : List String) (st : WalkState) : Prop :=
  ∀ m, (st.depthMap m).isSome = true → (∃ d, d ∈ lookupDeps map m ∧ isLib il d = true) →
    m ∈ st.discarded

/-- Invariant: every picked module holds a depth entry. -/
def PickedHaveDepth (st : WalkState) : Prop :=
  ∀ x, x ∈ st.picked → (st.depthMap x).isSome = true

/-- The cyclic two-module graph A requires B requires A. -/
def cycMap : DepsMap := [("A", ["B"]), ("B", ["A"])]

/-- Reachability along dependency edges whose intermediate hops are free of a
plugin marker: the only paths the closure builder can follow, since a
plugin-marked id terminates its recursion. -/
inductive ReachNB (map : DepsMap) : String → String → Prop
  | direct {name x : String} : x ∈ lookupDeps map name → ReachNB map name x
  | step {name y x : String} : y ∈ lookupDeps map name → hasBang y = false →
      ReachNB map y x → ReachNB map name x

/-- Environment of the C7 counterexample: file fM is module M depending on X,
file fA is module A depending on M. -/
def env7c : Env :=
  { nameOf := fun f => if f = "fM" then "M" else if f = "fA" then "A" else f
    depsOf := fun f => if f = "fM" then some [("X")] else if f = "fA" then some [("M")]
      else none
    content := fun f => f }

/-- Chunk list of the C7 counterexample: the main chunk bundles M (with
`mapDependencies` so the fileless X is dropped silently), and the `extra`
chunk with `dependentOn = [X]` and `noDuplicates` picks every module on a
path to X. -/
def cfgs7c : List ChunkCfg :=
  [ { name := "main", targets := ["fM"], lookup := ["fM", "fA"], dOn := none,
      mapDeps := true, noDuplicates := false },
    { name := "extra", targets := ["fA"], lookup := ["fM", "fA"], dOn := some ["X"],
      mapDeps := false, noDuplicates := true } ]

/-- Environment of the C7 witness: one later chunk bundling file fa. -/
def envW7 : Env :=
  { nameOf := fun f => if f = "fa" then "a" else f
    depsOf := fun f => if f = "fa" then some [] else none
    content := fun f => f }

/-- Chunk of the C7 witness: no dependentOn filter, noDuplicates set. -/
def cfgW7 : ChunkCfg :=
  { name := "one", targets := ["fa"], lookup := ["fa"], dOn := none, mapDeps := false,
    noDuplicates := true }

/-- State after a main chunk that materialized f0. -/
def stW7 : RunSt :=
  { mainFiles := ["f0"]
    filesAcc := ["f0"]
    outFiles := [("main", ["f0"])]
    outModules := [("main", ["z"])]
    outContents := [("main", "c0")]
    moduleChunk := []
    chunkDirect := [("main", [])] }

/-- Environment of the C8 counterexample and witness: two independent modules
m (file fm, content CM) and n (file fn, content CN), both main targets. -/
def env8c : Env :=
  { nameOf := fun f => if f = "fm" then "m" else if f = "fn" then "n" else f
    depsOf := fun f => if f = "fm" then some [] else if f = "fn" then some [] else none
    content := fun f => if f = "fm" then "CM" else if f = "fn" then "CN" else "" }

/-- Single main chunk bundling both files. -/
def cfgs8c : List ChunkCfg :=
  [ { name := "main", targets := ["fm", "fn"], lookup := ["fm", "fn"], dOn := none,
      mapDeps := false, noDuplicates := false } ]

/-- Environment of the C9 witness: module z (main), module a (chunk one),
module b (chunk two) depending on a. -/
def env9c : Env :=
  { nameOf := fun f => if f = "fa" then "a" else if f = "fb" then "b"
      else if f = "f0" then "z" else f
    depsOf := fun f => if f = "fa" then some [] else if f = "fb" then some [("a")]
      else if f = "f0" then some [] else none
    content := fun f => f }

/-- Chunk list of the C9 witness: chunk two directly requires module a, which
chunk one owns. -/
def cfgs9c : List ChunkCfg :=
  [ { name := "main", targets := ["f0"], lookup := ["f0", "fa", "fb"], dOn := none,
      mapDeps := false, noDuplicates := false },
    { name := "one", targets := ["fa"], lookup := ["f0", "fa", "fb"], dOn := none,
      mapDeps := false, noDuplicates := true },
    { name := "two", targets := ["fb"], lookup := ["f0", "fa", "fb"], dOn := none,
      mapDeps := false, noDuplicates := true } ]

/-- Final state of the C9 witness run. -/
def st9c : RunSt :=
  { mainFiles := ["f0"]
    filesAcc := ["f0", "fa", "fb"]
    outFiles := [("main", ["f0"]), ("one", ["fa"]), ("two", ["fb"])]
    outModules := [("main", ["z"]), ("one", ["a"]), ("two", ["b"])]
    outContents := [("main", "f0\n"), ("one", "fa\n"), ("two", "fb\n")]
    moduleChunk := [("a", "one"), ("b", "two")]
    chunkDirect := [("main", []), ("one", []), ("two", ["a"])] }

theorem memb_iff {x : String} {l : List String} : memb x l = true ↔ x ∈ l := by
  simp [memb]

theorem memb_false_iff {x : String} {l : List String} : memb x l = false ↔ x ∉ l := by
  simp [memb]

theorem dmLe_refl (d : String → Option Nat) : dmLe d d :=
  fun _ k h => ⟨k, h, le_refl k⟩

theorem dmLe_trans {a b c : String → Option Nat} (h1 : dmLe a b) (h2 : dmLe b c) :
    dmLe a c := by
  intro m k hk
  obtain ⟨k1, hk1, hle1⟩ := h1 m k hk
  obtain ⟨k2, hk2, hle2⟩ := h2 m k1 hk1
  exact ⟨k2, hk2, le_trans hle1 hle2⟩

theorem StLe_refl (s : WalkState) : StLe s s :=
  ⟨dmLe_refl _, fun _ h => h, fun _ h => h⟩

theorem StLe_trans {a b c : WalkState} (h1 : StLe a b) (h2 : StLe b c) : StLe a c :=
  ⟨dmLe_trans h1.1 h2.1, fun x hx => h2.2.1 x (h1.2.1 x hx), fun x hx => h2.2.2 x (h1.2.2 x hx)⟩

theorem updateDepth_ne {dm : String → Option Nat} {module x : String} {depth : Nat}
    (h : x ≠ module) : updateDepth dm module depth x = dm x := by
  simp [updateDepth, h]

theorem updateDepth_self (dm : String → Option Nat) (module : String) (depth : Nat) :
    ∃ v, updateDepth dm module depth module = some v ∧ depth ≤ v ∧
      ∀ k, dm module = some k → k ≤ v := by
  unfold updateDepth
  rw [if_pos rfl]
  cases h : dm module with
  | none => exact ⟨depth, rfl, le_refl _, fun k hk => by cases hk⟩
  | some d0 =>
    by_cases hlt : d0 < depth
    · refine ⟨depth, by simp [hlt], le_refl _, fun k hk => ?_⟩
      cases hk
      exact le_of_lt hlt
    · refine ⟨d0, by simp [hlt], le_of_not_lt hlt, fun k hk => ?_⟩
      cases hk
      exact le_refl _

theorem dmLe_updateDepth (dm : String → Option Nat) (module : String) (depth : Nat) :
    dmLe dm (updateDepth dm module depth) := by
  intro m k hk
  by_cases h : m = module
  · subst h
    obtain ⟨v, hv, _, hup⟩ := updateDepth_self dm m depth
    exact ⟨v, hv, hup k hk⟩
  · exact ⟨k, by rw [updateDepth_ne h]; exact hk, le_refl _⟩

theorem mem_addDiscard {path : List String} {st : WalkState} {x : String} :
    x ∈ (addDiscard path st).discarded ↔ x ∈ st.discarded ∨ x ∈ path := by
  simp only [addDiscard, List.mem_append, List.mem_filter, memb]
  constructor
  · rintro (h | ⟨h, -⟩)
    · exact Or.inl h
    · exact Or.inr h
  · rintro (h | h)
    · exact Or.inl h
    · by_cases hd : x ∈ st.discarded
      · exact Or.inl hd
      · exact Or.inr ⟨h, by simpa using hd⟩

theorem mem_addPicked {path : List String} {st : WalkState} {x : String} :
    x ∈ (addPicked path st).picked ↔ x ∈ st.picked ∨ x ∈ path := by
  simp only [addPicked, List.mem_append, List.mem_filter, memb]
  constructor
  · rintro (h | ⟨h, -⟩)
    · exact Or.inl h
    · exact Or.inr h
  · rintro (h | h)
    · exact Or.inl h
    · by_cases hd : x ∈ st.picked
      · exact Or.inl hd
      · exact Or.inr ⟨h, by simpa using hd⟩

theorem addDiscard_depthMap (path : List String) (st : WalkState) :
    (addDiscard path st).depthMap = st.depthMap := rfl

theorem addDiscard_picked (path : List String) (st : WalkState) :
    (addDiscard path st).picked = st.picked := rfl

theorem addPicked_depthMap (path : List String) (st : WalkState) :
    (addPicked path st).depthMap = st.depthMap := rfl

theorem addPicked_discarded (path : List String) (st : WalkState) :
    (addPicked path st).discarded = st.discarded := rfl

theorem checkDeps_cons (il : List String) (dOn : Option (List String))
    (path : List String) (d : String) (ds : List String) (st : WalkState) :
    checkDeps il dOn path (d :: ds) st =
      if isLib il d = true then (addDiscard path st, true)
      else checkDeps il dOn path ds (if depMatched dOn d = true then addPicked path st else st) :=
  rfl

theorem checkDeps_depthMap (il : List String) (dOn : Option (List String))
    (path : List String) :
    ∀ ds st, ((checkDeps il dOn path ds st).1).depthMap = st.depthMap := by
  intro ds
  induction ds with
  | nil => intro st; rfl
  | cons d ds ih =>
    intro st
    rw [checkDeps_cons]
    by_cases hl : isLib il d = true
    · rw [if_pos hl]
      rfl
    · rw [if_neg hl]
      by_cases hm : depMatched dOn d = true
      · rw [if_pos hm, ih, addPicked_depthMap]
      · rw [if_neg hm, ih]

theorem checkDeps_discarded_sub (il : List String) (dOn : Option (List String))
    (path : List String) :
    ∀ ds st x, x ∈ ((checkDeps il dOn path ds st).1).discarded →
      x ∈ st.discarded ∨ x ∈ path := by
  intro ds
  induction ds with
  | nil => intro st x h; exact Or.inl h
  | cons d ds ih =>
    intro st x h
    rw [checkDeps_cons] at h
    by_cases hl : isLib il d = true
    · rw [if_pos hl] at h
      exact mem_addDiscard.mp h
    · rw [if_neg hl] at h
      by_cases hm : depMatched dOn d = true
      · rw [if_pos hm] at h
        have := ih (addPicked path st) x h
        rwa [addPicked_discarded] at this
      · rw [if_neg hm] at h
        exact ih st x h

theorem checkDeps_picked_sub (il : List String) (dOn : Option (List String))
    (path : List String) :
    ∀ ds st x, x ∈ ((checkDeps il dOn path ds st).1).picked →
      x ∈ st.picked ∨ x ∈ path := by
  intro ds
  induction ds with
  | nil => intro st x h; exact Or.inl h
  | cons d ds ih =>
    intro st x h
    rw [checkDeps_cons] at h
    by_cases hl : isLib il d = true
    · rw [if_pos hl] at h
      rw [addDiscard_picked] at h
      exact Or.inl h
    · rw [if_neg hl] at h
      by_cases hm : depMatched dOn d = true
      · rw [if_pos hm] at h
        rcases ih (addPicked path st) x h with h' | h'
        · exact (mem_addPicked.mp h').imp id id
        · exact Or.inr h'
      · rw [if_neg hm] at h
        exact ih st x h

theorem checkDeps_stle (il : List String) (dOn : Option (List String))
    (path : List String) :
    ∀ ds st, StLe st (checkDeps il dOn path ds st).1 := by
  intro ds
  induction ds with
  | nil => intro st; exact StLe_refl st
  | cons d ds ih =>
    intro st
    rw [checkDeps_cons]
    by_cases hl : isLib il d = true
    · rw [if_pos hl]
      exact ⟨dmLe_refl _, fun x hx => mem_addDiscard.mpr (Or.inl hx), fun x hx => hx⟩
    · rw [if_neg hl]
      by_cases hm : depMatched dOn d = true
      · rw [if_pos hm]
        refine StLe_trans ?_ (ih (addPicked path st))
        exact ⟨dmLe_refl _, fun x hx => hx, fun x hx => mem_addPicked.mpr (Or.inl hx)⟩
      · rw [if_neg hm]
        exact ih st

theorem checkDeps_false (il : List String) (dOn : Option (List String))
    (path : List String) :
    ∀ ds st, (checkDeps il dOn path ds st).2 = false → ∀ d, d ∈ ds → isLib il d = false := by
  intro ds
  induction ds with
  | nil => intro st _ d hd; cases hd
  | cons d0 ds ih =>
    intro st h d hd
    rw [checkDeps_cons] at h
    by_cases hl : isLib il d0 = true
    · rw [if_pos hl] at h
      cases h
    · rw [if_neg hl] at h
      rcases List.mem_cons.mp hd with rfl | hd'
      · exact Bool.eq_false_iff.mpr hl
      · by_cases hm : depMatched dOn d0 = true
        · rw [if_pos hm] at h
          exact ih _ h d hd'
        · rw [if_neg hm] at h
          exact ih _ h d hd'

theorem checkDeps_lib (il : List String) (dOn : Option (List String))
    (path : List String) :
    ∀ ds st, (∃ d, d ∈ ds ∧ isLib il d = true) →
      ∀ x, x ∈ path → x ∈ ((checkDeps il dOn path ds st).1).discarded := by
  intro ds
  induction ds with
  | nil => rintro st ⟨d, hd, -⟩ x hx; cases hd
  | cons d0 ds ih =>
    rintro st ⟨d, hd, hdl⟩ x hx
    rw [checkDeps_cons]
    by_cases hl : isLib il d0 = true
    · rw [if_pos hl]
      exact mem_addDiscard.mpr (Or.inr hx)
    · rw [if_neg hl]
      rcases List.mem_cons.mp hd with rfl | hd'
      · exact absurd hdl hl
      · by_cases hm : depMatched dOn d0 = true
        · rw [if_pos hm]
          exact ih (addPicked path st) ⟨d, hd', hdl⟩ x hx
        · rw [if_neg hm]
          exact ih st ⟨d, hd', hdl⟩ x hx

theorem checkDeps_true (il : List String) (dOn : Option (List String))
    (path : List String) :
    ∀ ds st, (checkDeps il dOn path ds st).2 = true → ∃ d, d ∈ ds ∧ isLib il d = true := by
  intro ds
  induction ds with
  | nil => intro st h; cases h
  | cons d0 ds ih =>
    intro st h
    rw [checkDeps_cons] at h
    by_cases hl : isLib il d0 = true
    · exact ⟨d0, List.mem_cons_self _ _, hl⟩
    · rw [if_neg hl] at h
      by_cases hm : depMatched dOn d0 = true
      · rw [if_pos hm] at h
        obtain ⟨d, hd, hdl⟩ := ih _ h
        exact ⟨d, List.mem_cons_of_mem _ hd, hdl⟩
      · rw [if_neg hm] at h
        obtain ⟨d, hd, hdl⟩ := ih _ h
        exact ⟨d, List.mem_cons_of_mem _ hd, hdl⟩

theorem checkDeps_true_of_lib (il : List String) (dOn : Option (List String))
    (path : List String) :
    ∀ ds st, (∃ d, d ∈ ds ∧ isLib il d = true) → (checkDeps il dOn path ds st).2 = true := by
  intro ds
  induction ds with
  | nil => rintro st ⟨d, hd, -⟩; cases hd
  | cons d0 ds ih =>
    rintro st ⟨d, hd, hdl⟩
    rw [checkDeps_cons]
    by_cases hl : isLib il d0 = true
    · rw [if_pos hl]
    · rw [if_neg hl]
      rcases List.mem_cons.mp hd with rfl | hd'
      · exact absurd hdl hl
      · by_cases hm : depMatched dOn d0 = true
        · rw [if_pos hm]
          exact ih _ ⟨d, hd', hdl⟩
        · rw [if_neg hm]
          exact ih _ ⟨d, hd', hdl⟩

theorem dmLe_isSome {a b : String → Option Nat} (h : dmLe a b) {m : String}
    (hm : (a m).isSome = true) : (b m).isSome = true := by
  obtain ⟨k, hk⟩ := Option.isSome_iff_exists.mp hm
  obtain ⟨k', hk', -⟩ := h m k hk
  simp [hk']

theorem updateDepth_cases {dm : String → Option Nat} {module m : String} {depth k : Nat}
    (h : updateDepth dm module depth m = some k) :
    dm m = some k ∨ (m = module ∧ k = depth) := by
  by_cases hm : m = module
  · subst hm
    unfold updateDepth at h
    rw [if_pos rfl] at h
    cases hold : dm m with
    | none =>
      simp only [hold] at h
      cases h
      exact Or.inr ⟨rfl, rfl⟩
    | some d0 =>
      simp only [hold] at h
      by_cases hlt : d0 < depth
      · rw [if_pos hlt] at h
        cases h
        exact Or.inr ⟨rfl, rfl⟩
      · rw [if_neg hlt] at h
        exact Or.inl h
  · rw [updateDepth_ne hm] at h
    exact Or.inl h

theorem GoodAt_mono {map : DepsMap} {il : List String} {s t : WalkState}
    (h : dmLe s.depthMap t.depthMap) {m : String} {k : Nat}
    (hg : GoodAt map il s m k) : GoodAt map il t m k := by
  intro hguard D hD
  obtain ⟨e, he, hke⟩ := hg hguard D hD
  obtain ⟨e', he', hee'⟩ := h D e he
  exact ⟨e', he', le_trans hke hee'⟩

theorem walkDepsWith_cons (il : List String) (step : String → WalkState → Option WalkState)
    (d : String) (ds : List String) (st : WalkState) :
    walkDepsWith il step (d :: ds) st =
      if isLib il d = true then walkDepsWith il step ds st
      else
        match step d st with
        | none => none
        | some st' => walkDepsWith il step ds st' := rfl

theorem walkDepsWith_mono {il : List String} {step : String → WalkState → Option WalkState}
    (hstep : ∀ d t t', step d t = some t' → StLe t t') :
    ∀ ds st st', walkDepsWith il step ds st = some st' → StLe st st' := by
  intro ds
  induction ds with
  | nil => intro st st' h; cases h; exact StLe_refl _
  | cons d ds ih =>
    intro st st' h
    rw [walkDepsWith_cons] at h
    by_cases hl : isLib il d = true
    · rw [if_pos hl] at h
      exact ih st st' h
    · rw [if_neg hl] at h
      cases hs : step d st with
      | none => rw [hs] at h; cases h
      | some t1 =>
        rw [hs] at h
        exact StLe_trans (hstep d st t1 hs) (ih t1 st' h)

theorem walkDepsWith_preserve {il : List String} {step : String → WalkState → Option WalkState}
    (P : WalkState → Prop)
    (hstep : ∀ d t t', isLib il d = false → step d t = some t' → P t → P t') :
    ∀ ds st st', walkDepsWith il step ds st = some st' → P st → P st' := by
  intro ds
  induction ds with
  | nil => intro st st' h hp; cases h; exact hp
  | cons d ds ih =>
    intro st st' h hp
    rw [walkDepsWith_cons] at h
    by_cases hl : isLib il d = true
    · rw [if_pos hl] at h
      exact ih st st' h hp
    · rw [if_neg hl] at h
      cases hs : step d st with
      | none => rw [hs] at h; cases h
      | some t1 =>
        rw [hs] at h
        exact ih t1 st' h (hstep d st t1 (Bool.eq_false_iff.mpr hl) hs hp)

theorem walkDepsWith_post {il : List String} {step : String → WalkState → Option WalkState}
    {base : Nat}
    (hmono : ∀ d t t', step d t = some t' → StLe t t')
    (hself : ∀ d t t', isLib il d = false → step d t = some t' →
      ∃ k, t'.depthMap d = some k ∧ base ≤ k) :
    ∀ ds st st', walkDepsWith il step ds st = some st' →
      ∀ d, d ∈ ds → isLib il d = false → ∃ k, st'.depthMap d = some k ∧ base ≤ k := by
  intro ds
  induction ds with
  | nil => intro st st' h d hd; cases hd
  | cons d0 ds ih =>
    intro st st' h d hd hdl
    rw [walkDepsWith_cons] at h
    by_cases hl : isLib il d0 = true
    · rw [if_pos hl] at h
      rcases List.mem_cons.mp hd with rfl | hd'
      · rw [hdl] at hl; cases hl
      · exact ih st st' h d hd' hdl
    · rw [if_neg hl] at h
      cases hs : step d0 st with
      | none => rw [hs] at h; cases h
      | some t1 =>
        rw [hs] at h
        rcases List.mem_cons.mp hd with rfl | hd'
        · obtain ⟨k, hk, hbk⟩ := hself d st t1 hdl hs
          obtain ⟨k', hk', hkk'⟩ := (walkDepsWith_mono hmono ds t1 st' h).1 d k hk
          exact ⟨k', hk', le_trans hbk hkk'⟩
        · exact ih t1 st' h d hd' hdl

theorem walkDepsWith_raises {map : DepsMap} {il : List String}
    {step : String → WalkState → Option WalkState}
    (hmono : ∀ d t t', step d t = some t' → StLe t t')
    (hstep : ∀ d t t', step d t = some t' → ∀ m k, t'.depthMap m = some k →
      t.depthMap m = some k ∨ GoodAt map il t' m k) :
    ∀ ds st st', walkDepsWith il step ds st = some st' →
      ∀ m k, st'.depthMap m = some k → st.depthMap m = some k ∨ GoodAt map il st' m k := by
  intro ds
  induction ds with
  | nil => intro st st' h m k hk; cases h; exact Or.inl hk
  | cons d ds ih =>
    intro st st' h m k hk
    rw [walkDepsWith_cons] at h
    by_cases hl : isLib il d = true
    · rw [if_pos hl] at h
      exact ih st st' h m k hk
    · rw [if_neg hl] at h
      cases hs : step d st with
      | none => rw [hs] at h; cases h
      | some t1 =>
        rw [hs] at h
        rcases ih t1 st' h m k hk with h1 | h1
        · rcases hstep d st t1 hs m k h1 with h2 | h2
          · exact Or.inl h2
          · exact Or.inr (GoodAt_mono (walkDepsWith_mono hmono ds t1 st' h).1 h2)
        · exact Or.inr h1

theorem walkDepsWith_calls {il : List String} {step : String → WalkState → Option WalkState}
    (hmono : ∀ d t t', step d t = some t' → StLe t t') :
    ∀ ds st st', walkDepsWith il step ds st = some st' →
      ∀ d, d ∈ ds → isLib il d = false →
        ∃ t t', step d t = some t' ∧ ∀ x, x ∈ t'.discarded → x ∈ st'.discarded := by
  intro ds
  induction ds with
  | nil => intro st st' h d hd; cases hd
  | cons d0 ds ih =>
    intro st st' h d hd hdl
    rw [walkDepsWith_cons] at h
    by_cases hl : isLib il d0 = true
    · rw [if_pos hl] at h
      rcases List.mem_cons.mp hd with rfl | hd'
      · rw [hdl] at hl; cases hl
      · exact ih st st' h d hd' hdl
    · rw [if_neg hl] at h
      cases hs : step d0 st with
      | none => rw [hs] at h; cases h
      | some t1 =>
        rw [hs] at h
        rcases List.mem_cons.mp hd with rfl | hd'
        · exact ⟨st, t1, hs, fun x hx => (walkDepsWith_mono hmono ds t1 st' h).2.1 x hx⟩
        · exact ih t1 st' h d hd' hdl

theorem buildTreeItem_succ (map : DepsMap) (il : List String) (dOn : Option (List String))
    (fuel : Nat) (module : String) (depth : Nat) (path0 : List String) (st : WalkState) :
    buildTreeItem map il dOn (fuel + 1) module depth path0 st =
      if (lookupDeps map module).isEmpty = true
      then some { st with depthMap := updateDepth st.depthMap module depth }
      else
        if (checkDeps il dOn (path0 ++ [module]) (lookupDeps map module)
            { st with depthMap := updateDepth st.depthMap module depth }).2 = true
        then some (checkDeps il dOn (path0 ++ [module]) (lookupDeps map module)
            { st with depthMap := updateDepth st.depthMap module depth }).1
        else walkDepsWith il
          (fun d t => buildTreeItem map il dOn fuel d (depth + 1) (path0 ++ [module]) t)
          (lookupDeps map module)
          (checkDeps il dOn (path0 ++ [module]) (lookupDeps map module)
            { st with depthMap := updateDepth st.depthMap module depth }).1 := rfl

theorem buildTreeItem_mono (map : DepsMap) (il : List String) (dOn : Option (List String)) :
    ∀ fuel module depth path0 st st',
      buildTreeItem map il dOn fuel module depth path0 st = some st' → StLe st st' := by
  intro fuel
  induction fuel with
  | zero => intro module depth path0 st st' h; cases h
  | succ n ih =>
    intro module depth path0 st st' h
    rw [buildTreeItem_succ] at h
    have hst1 : StLe st { st with depthMap := updateDepth st.depthMap module depth } :=
      ⟨dmLe_updateDepth _ _ _, fun x hx => hx, fun x hx => hx⟩
    by_cases hemp : (lookupDeps map module).isEmpty = true
    · rw [if_pos hemp] at h
      cases h
      exact hst1
    · rw [if_neg hemp] at h
      have hck : StLe st (checkDeps il dOn (path0 ++ [module]) (lookupDeps map module)
          { st with depthMap := updateDepth st.depthMap module depth }).1 :=
        StLe_trans hst1 (checkDeps_stle il dOn _ _ _)
      by_cases hab : (checkDeps il dOn (path0 ++ [module]) (lookupDeps map module)
          { st with depthMap := updateDepth st.depthMap module depth }).2 = true
      · rw [if_pos hab] at h
        cases h
        exact hck
      · rw [if_neg hab] at h
        exact StLe_trans hck
          (walkDepsWith_mono (fun d t t' hs => ih d (depth + 1) (path0 ++ [module]) t t' hs)
            _ _ _ h)

theorem buildTreeItem_self (map : DepsMap) (il : List String) (dOn : Option (List String)) :
    ∀ fuel module depth path0 st st',
      buildTreeItem map il dOn fuel module depth path0 st = some st' →
      ∃ k, st'.depthMap module = some k ∧ depth ≤ k := by
  intro fuel
  cases fuel with
  | zero => intro module depth path0 st st' h; cases h
  | succ n =>
    intro module depth path0 st st' h
    rw [buildTreeItem_succ] at h
    obtain ⟨v, hv, hdv, -⟩ := updateDepth_self st.depthMap module depth
    by_cases hemp : (lookupDeps map module).isEmpty = true
    · rw [if_pos hemp] at h
      cases h
      exact ⟨v, hv, hdv⟩
    · rw [if_neg hemp] at h
      have hckdm : (checkDeps il dOn (path0 ++ [module]) (lookupDeps map module)
          { st with depthMap := updateDepth st.depthMap module depth }).1.depthMap module =
          some v := by
        rw [checkDeps_depthMap]
        exact hv
      by_cases hab : (checkDeps il dOn (path0 ++ [module]) (lookupDeps map module)
          { st with depthMap := updateDepth st.depthMap module depth }).2 = true
      · rw [if_pos hab] at h
        cases h
        exact ⟨v, hckdm, hdv⟩
      · rw [if_neg hab] at h
        obtain ⟨k', hk', hvk'⟩ :=
          (walkDepsWith_mono
            (fun d t t' hs => buildTreeItem_mono map il dOn n d (depth + 1) (path0 ++ [module]) t t' hs)
            _ _ _ h).1 module v hckdm
        exact ⟨k', hk', le_trans hdv hvk'⟩

theorem buildTreeItem_raises (map : DepsMap) (il : List String) (dOn : Option (List String)) :
    ∀ fuel module depth path0 st st',
      buildTreeItem map il dOn fuel module depth path0 st = some st' →
      ∀ m k, st'.depthMap m = some k →
        st.depthMap m = some k ∨ GoodAt map il st' m k := by
  intro fuel
  induction fuel with
  | zero => intro module depth path0 st st' h; cases h
  | succ n ih =>
    intro module depth path0 st st' h m k hk
    rw [buildTreeItem_succ] at h
    by_cases hemp : (lookupDeps map module).isEmpty = true
    · rw [if_pos hemp] at h
      cases h
      rcases updateDepth_cases hk with h1 | ⟨rfl, rfl⟩
      · exact Or.inl h1
      · refine Or.inr (fun hguard D hD => absurd hD ?_)
        rw [List.isEmpty_iff] at hemp
        rw [hemp]
        exact List.not_mem_nil D
    · rw [if_neg hemp] at h
      by_cases hab : (checkDeps il dOn (path0 ++ [module]) (lookupDeps map module)
          { st with depthMap := updateDepth st.depthMap module depth }).2 = true
      · rw [if_pos hab] at h
        cases h
        rw [checkDeps_depthMap] at hk
        rcases updateDepth_cases hk with h1 | ⟨rfl, rfl⟩
        · exact Or.inl h1
        · refine Or.inr (fun hguard D hD => ?_)
          obtain ⟨d, hd, hdl⟩ := checkDeps_true il dOn _ _ _ hab
          rw [hguard d hd] at hdl
          cases hdl
      · rw [if_neg hab] at h
        rcases walkDepsWith_raises
            (fun d t t' hs => buildTreeItem_mono map il dOn n d (depth + 1) (path0 ++ [module]) t t' hs)
            (fun d t t' hs => ih d (depth + 1) (path0 ++ [module]) t t' hs)
            _ _ _ h m k hk with h1 | h1
        · rw [checkDeps_depthMap] at h1
          rcases updateDepth_cases h1 with h2 | ⟨hm, hk⟩
          · exact Or.inl h2
          · subst hm
            subst hk
            refine Or.inr (fun hguard D hD => ?_)
            exact walkDepsWith_post
              (fun d t t' hs => buildTreeItem_mono map il dOn n d (k + 1) (path0 ++ [m]) t t' hs)
              (fun d t t' _ hs => buildTreeItem_self map il dOn n d (k + 1) (path0 ++ [m]) t t' hs)
              _ _ _ h D hD (hguard D hD)
        · exact Or.inr h1

theorem nonempty_of_mem {l : List String} {d : String} (hd : d ∈ l) :
    l.isEmpty = false := by
  cases l with
  | nil => cases hd
  | cons a t => rfl

theorem updateDepth_isSome {dm : String → Option Nat} {module m : String} {depth : Nat}
    (h : (updateDepth dm module depth m).isSome = true) :
    (dm m).isSome = true ∨ m = module := by
  by_cases hm : m = module
  · exact Or.inr hm
  · rw [updateDepth_ne hm] at h
    exact Or.inl h

theorem buildTreeItem_libdep (map : DepsMap) (il : List String) (dOn : Option (List String)) :
    ∀ fuel module depth path0 st st',
      buildTreeItem map il dOn fuel module depth path0 st = some st' →
      LibDepDiscarded map il st → LibDepDiscarded map il st' := by
  intro fuel
  induction fuel with
  | zero => intro module depth path0 st st' h; cases h
  | succ n ih =>
    intro module depth path0 st st' h hinv
    rw [buildTreeItem_succ] at h
    by_cases hemp : (lookupDeps map module).isEmpty = true
    · rw [if_pos hemp] at h
      cases h
      intro m hm hlib
      rcases updateDepth_isSome hm with h1 | rfl
      · exact hinv m h1 hlib
      · obtain ⟨d, hd, -⟩ := hlib
        rw [nonempty_of_mem hd] at hemp
        cases hemp
    · rw [if_neg hemp] at h
      have hinv1 : LibDepDiscarded map il
          (checkDeps il dOn (path0 ++ [module]) (lookupDeps map module)
            { st with depthMap := updateDepth st.depthMap module depth }).1 := by
        intro m hm hlib
        rw [checkDeps_depthMap] at hm
        rcases updateDepth_isSome hm with h1 | rfl
        · exact (checkDeps_stle il dOn _ _ _).2.1 m (hinv m h1 hlib)
        · exact checkDeps_lib il dOn _ _ _ hlib m (List.mem_append_right _ (List.mem_singleton.mpr rfl))
      by_cases hab : (checkDeps il dOn (path0 ++ [module]) (lookupDeps map module)
          { st with depthMap := updateDepth st.depthMap module depth }).2 = true
      · rw [if_pos hab] at h
        cases h
        exact hinv1
      · rw [if_neg hab] at h
        exact walkDepsWith_preserve (LibDepDiscarded map il)
          (fun d t t' _ hs hp => ih d (depth + 1) (path0 ++ [module]) t t' hs hp)
          _ _ _ h hinv1

theorem buildTreeItem_picked_depth (map : DepsMap) (il : List String)
    (dOn : Option (List String)) :
    ∀ fuel module depth path0 st st',
      buildTreeItem map il dOn fuel module depth path0 st = some st' →
      (∀ x, x ∈ path0 → (st.depthMap x).isSome = true) →
      PickedHaveDepth st → PickedHaveDepth st' := by
  intro fuel
  induction fuel with
  | zero => intro module depth path0 st st' h; cases h
  | succ n ih =>
    intro module depth path0 st st' h hpath hp
    rw [buildTreeItem_succ] at h
    obtain ⟨v, hv, -, -⟩ := updateDepth_self st.depthMap module depth
    have hpath1 : ∀ x, x ∈ path0 ++ [module] →
        ((updateDepth st.depthMap module depth) x).isSome = true := by
      intro x hx
      rcases List.mem_append.mp hx with hx1 | hx2
      · exact dmLe_isSome (dmLe_updateDepth _ _ _) (hpath x hx1)
      · rw [List.mem_singleton.mp hx2, hv]
        rfl
    have hp1 : PickedHaveDepth { st with depthMap := updateDepth st.depthMap module depth } :=
      fun x hx => dmLe_isSome (dmLe_updateDepth _ _ _) (hp x hx)
    by_cases hemp : (lookupDeps map module).isEmpty = true
    · rw [if_pos hemp] at h
      cases h
      exact hp1
    · rw [if_neg hemp] at h
      have hck : PickedHaveDepth (checkDeps il dOn (path0 ++ [module]) (lookupDeps map module)
          { st with depthMap := updateDepth st.depthMap module depth }).1 := by
        intro x hx
        rw [checkDeps_depthMap]
        rcases checkDeps_picked_sub il dOn _ _ _ x hx with h1 | h1
        · exact hp1 x h1
        · exact hpath1 x h1
      have hckpath : ∀ x, x ∈ path0 ++ [module] →
          ((checkDeps il dOn (path0 ++ [module]) (lookupDeps map module)
            { st with depthMap := updateDepth st.depthMap module depth }).1.depthMap x).isSome
            = true := by
        intro x hx
        rw [checkDeps_depthMap]
        exact hpath1 x hx
      by_cases hab : (checkDeps il dOn (path0 ++ [module]) (lookupDeps map module)
          { st with depthMap := updateDepth st.depthMap module depth }).2 = true
      · rw [if_pos hab] at h
        cases h
        exact hck
      · rw [if_neg hab] at h
        have := walkDepsWith_preserve
          (fun t => (∀ x, x ∈ path0 ++ [module] → (t.depthMap x).isSome = true) ∧
            PickedHaveDepth t)
          (fun d t t' _ hs hpt =>
            ⟨fun x hx => dmLe_isSome (buildTreeItem_mono map il dOn n d (depth + 1)
                (path0 ++ [module]) t t' hs).1 (hpt.1 x hx),
             ih d (depth + 1) (path0 ++ [module]) t t' hs hpt.1 hpt.2⟩)
          _ _ _ h ⟨hckpath, hck⟩
        exact this.2

theorem buildTreeItem_discards (map : DepsMap) (il : List String)
    (dOn : Option (List String)) :
    ∀ fuel module depth path0 st st',
      buildTreeItem map il dOn fuel module depth path0 st = some st' →
      (∃ d, d ∈ lookupDeps map module ∧ isLib il d = true) →
      ∀ x, x ∈ path0 ++ [module] → x ∈ st'.discarded := by
  intro fuel
  cases fuel with
  | zero => intro module depth path0 st st' h; cases h
  | succ n =>
    intro module depth path0 st st' h hlib x hx
    rw [buildTreeItem_succ] at h
    obtain ⟨d, hd, hdl⟩ := hlib
    rw [if_neg (by rw [nonempty_of_mem hd]; exact Bool.false_ne_true)] at h
    rw [if_pos (checkDeps_true_of_lib il dOn _ _ _ ⟨d, hd, hdl⟩)] at h
    cases h
    exact checkDeps_lib il dOn _ _ _ ⟨d, hd, hdl⟩ x hx

theorem buildTreeItem_discards_via (map : DepsMap) (il : List String)
    (dOn : Option (List String)) :
    ∀ fuel module depth path0 st st' B,
      buildTreeItem map il dOn fuel module depth path0 st = some st' →
      B ∈ lookupDeps map module →
      (∃ d, d ∈ lookupDeps map B ∧ isLib il d = true) →
      module ∈ st'.discarded := by
  intro fuel
  cases fuel with
  | zero => intro module depth path0 st st' B h; cases h
  | succ n =>
    intro module depth path0 st st' B h hB hBlib
    by_cases hBl : isLib il B = true
    · exact buildTreeItem_discards map il dOn (n + 1) module depth path0 st st' h
        ⟨B, hB, hBl⟩ module (List.mem_append_right _ (List.mem_singleton.mpr rfl))
    · rw [buildTreeItem_succ] at h
      rw [if_neg (by rw [nonempty_of_mem hB]; exact Bool.false_ne_true)] at h
      by_cases hab : (checkDeps il dOn (path0 ++ [module]) (lookupDeps map module)
          { st with depthMap := updateDepth st.depthMap module depth }).2 = true
      · rw [if_pos hab] at h
        cases h
        exact checkDeps_lib il dOn _ _ _ (checkDeps_true il dOn _ _ _ hab) module
          (List.mem_append_right _ (List.mem_singleton.mpr rfl))
      · rw [if_neg hab] at h
        obtain ⟨t, t', hcall, hsub⟩ := walkDepsWith_calls
          (fun d u u' hs => buildTreeItem_mono map il dOn n d (depth + 1) (path0 ++ [module]) u u' hs)
          _ _ _ h B hB (Bool.eq_false_iff.mpr hBl)
        exact hsub module (buildTreeItem_discards map il dOn n B (depth + 1)
          (path0 ++ [module]) t t' hcall hBlib module
          (List.mem_append_left _ (List.mem_append_right _ (List.mem_singleton.mpr rfl))))

theorem buildTreeItem_no_discard (map : DepsMap) (il : List String)
    (dOn : Option (List String)) (C : String)
    (hCd : lookupDeps map C = []) :
    ∀ fuel module depth path0 st st',
      buildTreeItem map il dOn fuel module depth path0 st = some st' →
      C ∉ path0 → C ∉ st.discarded → C ∉ st'.discarded := by
  intro fuel
  induction fuel with
  | zero => intro module depth path0 st st' h; cases h
  | succ n ih =>
    intro module depth path0 st st' h hpath hdisc
    rw [buildTreeItem_succ] at h
    by_cases hmC : module = C
    · subst hmC
      rw [if_pos (by rw [hCd]; rfl)] at h
      cases h
      exact hdisc
    · have hCpath : C ∉ path0 ++ [module] := by
        intro hx
        rcases List.mem_append.mp hx with h1 | h2
        · exact hpath h1
        · exact hmC (List.mem_singleton.mp h2).symm
      by_cases hemp : (lookupDeps map module).isEmpty = true
      · rw [if_pos hemp] at h
        cases h
        exact hdisc
      · rw [if_neg hemp] at h
        have hck : C ∉ (checkDeps il dOn (path0 ++ [module]) (lookupDeps map module)
            { st with depthMap := updateDepth st.depthMap module depth }).1.discarded := by
          intro hx
          rcases checkDeps_discarded_sub il dOn _ _ _ C hx with h1 | h1
          · exact hdisc h1
          · exact hCpath h1
        by_cases hab : (checkDeps il dOn (path0 ++ [module]) (lookupDeps map module)
            { st with depthMap := updateDepth st.depthMap module depth }).2 = true
        · rw [if_pos hab] at h
          cases h
          exact hck
        · rw [if_neg hab] at h
          exact walkDepsWith_preserve (fun t => C ∉ t.discarded)
            (fun d t t' _ hs hp => ih d (depth + 1) (path0 ++ [module]) t t' hs hCpath hp)
            _ _ _ h hck

/-- Invariant: every picked module is free of a plugin marker, provided every
plugin-marked id has no graph entry (true for the bundler's maps, whose keys
are file-derived module names). -/
theorem buildTreeItem_picked_bangfree (map : DepsMap) (il : List String)
    (dOn : Option (List String))
    (hmap : ∀ d, hasBang d = true → lookupDeps map d = []) :
    ∀ fuel module depth path0 st st',
      buildTreeItem map il dOn fuel module depth path0 st = some st' →
      (∀ x, x ∈ path0 → hasBang x = false) →
      (∀ x, x ∈ st.picked → hasBang x = false) →
      (∀ x, x ∈ st'.picked → hasBang x = false) := by
  intro fuel
  induction fuel with
  | zero => intro module depth path0 st st' h; cases h
  | succ n ih =>
    intro module depth path0 st st' h hpath hp
    rw [buildTreeItem_succ] at h
    by_cases hbm : hasBang module = true
    · rw [if_pos (by rw [hmap module hbm]; rfl)] at h
      cases h
      exact hp
    · have hpath1 : ∀ x, x ∈ path0 ++ [module] → hasBang x = false := by
        intro x hx
        rcases List.mem_append.mp hx with h1 | h2
        · exact hpath x h1
        · rw [List.mem_singleton.mp h2]
          exact Bool.eq_false_iff.mpr hbm
      by_cases hemp : (lookupDeps map module).isEmpty = true
      · rw [if_pos hemp] at h
        cases h
        exact hp
      · rw [if_neg hemp] at h
        have hck : ∀ x, x ∈ (checkDeps il dOn (path0 ++ [module]) (lookupDeps map module)
            { st with depthMap := updateDepth st.depthMap module depth }).1.picked →
            hasBang x = false := by
          intro x hx
          rcases checkDeps_picked_sub il dOn _ _ _ x hx with h1 | h1
          · exact hp x h1
          · exact hpath1 x h1
        by_cases hab : (checkDeps il dOn (path0 ++ [module]) (lookupDeps map module)
            { st with depthMap := updateDepth st.depthMap module depth }).2 = true
        · rw [if_pos hab] at h
          cases h
          exact hck
        · rw [if_neg hab] at h
          exact walkDepsWith_preserve (fun t => ∀ x, x ∈ t.picked → hasBang x = false)
            (fun d t t' _ hs hpt => ih d (depth + 1) (path0 ++ [module]) t t' hs hpath1 hpt)
            _ _ _ h hck

theorem walkAll_mono (map : DepsMap) (il : List String) (dOn : Option (List String))
    (fuel : Nat) :
    ∀ ms st st', walkAll map il dOn fuel ms st = some st' → StLe st st' := by
  intro ms
  induction ms with
  | nil => intro st st' h; cases h; exact StLe_refl _
  | cons m ms ih =>
    intro st st' h
    simp only [walkAll] at h
    cases hs : buildTreeItem map il dOn fuel m 0 [] st with
    | none => rw [hs] at h; cases h
    | some t1 =>
      rw [hs] at h
      exact StLe_trans (buildTreeItem_mono map il dOn fuel m 0 [] st t1 hs) (ih t1 st' h)

theorem walkAll_preserve (map : DepsMap) (il : List String) (dOn : Option (List String))
    (fuel : Nat) (P : WalkState → Prop)
    (hstep : ∀ m t t', buildTreeItem map il dOn fuel m 0 [] t = some t' → P t → P t') :
    ∀ ms st st', walkAll map il dOn fuel ms st = some st' → P st → P st' := by
  intro ms
  induction ms with
  | nil => intro st st' h hp; cases h; exact hp
  | cons m ms ih =>
    intro st st' h hp
    simp only [walkAll] at h
    cases hs : buildTreeItem map il dOn fuel m 0 [] st with
    | none => rw [hs] at h; cases h
    | some t1 =>
      rw [hs] at h
      exact ih t1 st' h (hstep m st t1 hs hp)

theorem walkAll_raises (map : DepsMap) (il : List String) (dOn : Option (List String))
    (fuel : Nat) :
    ∀ ms st st', walkAll map il dOn fuel ms st = some st' →
      ∀ m k, st'.depthMap m = some k → st.depthMap m = some k ∨ GoodAt map il st' m k := by
  intro ms
  induction ms with
  | nil => intro st st' h m k hk; cases h; exact Or.inl hk
  | cons r ms ih =>
    intro st st' h m k hk
    simp only [walkAll] at h
    cases hs : buildTreeItem map il dOn fuel r 0 [] st with
    | none => rw [hs] at h; cases h
    | some t1 =>
      rw [hs] at h
      rcases ih t1 st' h m k hk with h1 | h1
      · rcases buildTreeItem_raises map il dOn fuel r 0 [] st t1 hs m k h1 with h2 | h2
        · exact Or.inl h2
        · exact Or.inr (GoodAt_mono (walkAll_mono map il dOn fuel ms t1 st' h).1 h2)
      · exact Or.inr h1

theorem walkAll_root_entry (map : DepsMap) (il : List String) (dOn : Option (List String))
    (fuel : Nat) :
    ∀ ms st st', walkAll map il dOn fuel ms st = some st' →
      ∀ m, m ∈ ms → (st'.depthMap m).isSome = true := by
  intro ms
  induction ms with
  | nil => intro st st' h m hm; cases hm
  | cons r ms ih =>
    intro st st' h m hm
    simp only [walkAll] at h
    cases hs : buildTreeItem map il dOn fuel r 0 [] st with
    | none => rw [hs] at h; cases h
    | some t1 =>
      rw [hs] at h
      rcases List.mem_cons.mp hm with rfl | hm'
      · obtain ⟨k, hk, -⟩ := buildTreeItem_self map il dOn fuel m 0 [] st t1 hs
        exact dmLe_isSome (walkAll_mono map il dOn fuel ms t1 st' h).1 (by simp [hk])
      · exact ih t1 st' h m hm'

theorem walkAll_calls (map : DepsMap) (il : List String) (dOn : Option (List String))
    (fuel : Nat) :
    ∀ ms st st', walkAll map il dOn fuel ms st = some st' →
      ∀ m, m ∈ ms → ∃ t t', buildTreeItem map il dOn fuel m 0 [] t = some t' ∧
        ∀ x, x ∈ t'.discarded → x ∈ st'.discarded := by
  intro ms
  induction ms with
  | nil => intro st st' h m hm; cases hm
  | cons r ms ih =>
    intro st st' h m hm
    simp only [walkAll] at h
    cases hs : buildTreeItem map il dOn fuel r 0 [] st with
    | none => rw [hs] at h; cases h
    | some t1 =>
      rw [hs] at h
      rcases List.mem_cons.mp hm with rfl | hm'
      · exact ⟨st, t1, hs, fun x hx => (walkAll_mono map il dOn fuel ms t1 st' h).2.1 x hx⟩
      · exact ih t1 st' h m hm'

theorem mem_insertByDepth (dm : String → Option Nat) (y : String) :
    ∀ l x, x ∈ insertByDepth dm y l ↔ x = y ∨ x ∈ l := by
  intro l
  induction l with
  | nil => intro x; simp [insertByDepth]
  | cons z zs ih =>
    intro x
    simp only [insertByDepth]
    by_cases hc : depthD dm z < depthD dm y
    · rw [if_pos hc]
      simp [List.mem_cons]
    · rw [if_neg hc]
      simp only [List.mem_cons, ih]
      tauto

theorem pairwise_insertByDepth (dm : String → Option Nat) (y : String) :
    ∀ l, l.Pairwise (fun a b => depthD dm b ≤ depthD dm a) →
      (insertByDepth dm y l).Pairwise (fun a b => depthD dm b ≤ depthD dm a) := by
  intro l
  induction l with
  | nil => intro h; simp [insertByDepth]
  | cons z zs ih =>
    intro h
    rw [List.pairwise_cons] at h
    simp only [insertByDepth]
    by_cases hc : depthD dm z < depthD dm y
    · rw [if_pos hc]
      refine List.pairwise_cons.mpr ⟨?_, List.pairwise_cons.mpr h⟩
      intro b hb
      rcases List.mem_cons.mp hb with rfl | hb'
      · exact le_of_lt hc
      · exact le_trans (h.1 b hb') (le_of_lt hc)
    · rw [if_neg hc]
      refine List.pairwise_cons.mpr ⟨?_, ih h.2⟩
      intro b hb
      rcases (mem_insertByDepth dm y zs b).mp hb with rfl | hb'
      · exact le_of_not_lt hc
      · exact h.1 b hb'

theorem mem_sortByDepthDesc_aux (dm : String → Option Nat) :
    ∀ (l acc : List String) (x : String),
      (x ∈ l.foldl (fun a y => insertByDepth dm y a) acc) ↔ x ∈ acc ∨ x ∈ l := by
  intro l
  induction l with
  | nil => intro acc x; simp
  | cons z zs ih =>
    intro acc x
    simp only [List.foldl_cons]
    rw [ih]
    rw [mem_insertByDepth]
    simp [List.mem_cons]
    tauto

theorem mem_sortByDepthDesc (dm : String → Option Nat) (l : List String) (x : String) :
    x ∈ sortByDepthDesc dm l ↔ x ∈ l := by
  unfold sortByDepthDesc
  rw [mem_sortByDepthDesc_aux]
  simp

theorem pairwise_sortByDepthDesc_aux (dm : String → Option Nat) :
    ∀ (l acc : List String), acc.Pairwise (fun a b => depthD dm b ≤ depthD dm a) →
      (l.foldl (fun a y => insertByDepth dm y a) acc).Pairwise
        (fun a b => depthD dm b ≤ depthD dm a) := by
  intro l
  induction l with
  | nil => intro acc h; simpa using h
  | cons z zs ih =>
    intro acc h
    simp only [List.foldl_cons]
    exact ih _ (pairwise_insertByDepth dm z acc h)

theorem pairwise_sortByDepthDesc (dm : String → Option Nat) (l : List String) :
    (sortByDepthDesc dm l).Pairwise (fun a b => depthD dm b ≤ depthD dm a) :=
  pairwise_sortByDepthDesc_aux dm l [] (List.Pairwise.nil)

theorem pairwise_before {R : String → String → Prop} :
    ∀ l : List String, l.Pairwise R → ∀ D M, D ∈ l → M ∈ l → D ≠ M → ¬ R M D →
      [D, M].Sublist l := by
  intro l
  induction l with
  | nil => intro _ D M hD; cases hD
  | cons a l ih =>
    intro h D M hD hM hne hnR
    rw [List.pairwise_cons] at h
    by_cases haD : a = D
    · subst haD
      have hMl : M ∈ l := by
        rcases List.mem_cons.mp hM with rfl | h'
        · exact absurd rfl hne
        · exact h'
      exact List.Sublist.cons₂ a (List.singleton_sublist.mpr hMl)
    · have hDl : D ∈ l := by
        rcases List.mem_cons.mp hD with rfl | h'
        · exact absurd rfl haD
        · exact h'
      by_cases haM : a = M
      · subst haM
        exact absurd (h.1 D hDl) hnR
      · have hMl : M ∈ l := by
          rcases List.mem_cons.mp hM with rfl | h'
          · exact absurd rfl haM
          · exact h'
        exact List.Sublist.cons a (ih h.2 D M hDl hMl hne hnR)

theorem sortByDepthDesc_before {dm : String → Option Nat} {l : List String}
    {D M : String} {dD dM : Nat} (hD : D ∈ l) (hM : M ∈ l)
    (hdD : dm D = some dD) (hdM : dm M = some dM) (hlt : dM < dD) :
    [D, M].Sublist (sortByDepthDesc dm l) := by
  have hne : D ≠ M := by
    intro he
    rw [he, hdM] at hdD
    cases hdD
    exact lt_irrefl _ hlt
  refine pairwise_before _ (pairwise_sortByDepthDesc dm l) D M
    ((mem_sortByDepthDesc dm l D).mpr hD) ((mem_sortByDepthDesc dm l M).mpr hM) hne ?_
  unfold depthD
  rw [hdD, hdM]
  simp only [Option.getD_some]
  exact fun hle => absurd hlt (not_lt_of_le hle)

theorem resolvePaths_cons (fileMap : String → Option String) (mapDeps : Bool)
    (libs : List Lib) (n : String) (ns : List String) :
    resolvePaths fileMap mapDeps libs (n :: ns) =
      if (fileMap n).isNone && mapDeps then resolvePaths fileMap mapDeps libs ns
      else
        match fileMap n with
        | some f => (resolvePaths fileMap mapDeps libs ns).map (fun ps => f :: ps)
        | none =>
          if libMatches libs n then resolvePaths fileMap mapDeps libs ns
          else .error (canNotObtainMsg n) := rfl

theorem resolvePaths_ok_shape (fileMap : String → Option String) (mapDeps : Bool)
    (libs : List Lib) :
    ∀ ms ps, resolvePaths fileMap mapDeps libs ms = .ok ps → ps = ms.filterMap fileMap := by
  intro ms
  induction ms with
  | nil => intro ps h; cases h; rfl
  | cons n ns ih =>
    intro ps h
    rw [resolvePaths_cons] at h
    by_cases hskip : ((fileMap n).isNone && mapDeps) = true
    · rw [if_pos hskip] at h
      have hn : fileMap n = none := by
        simp only [Bool.and_eq_true, Option.isNone_iff_eq_none] at hskip
        exact hskip.1
      rw [List.filterMap_cons, hn]
      exact ih ps h
    · rw [if_neg hskip] at h
      cases hf : fileMap n with
      | some f =>
        rw [hf] at h
        cases hrest : resolvePaths fileMap mapDeps libs ns with
        | error e => rw [hrest] at h; cases h
        | ok ps' =>
          rw [hrest] at h
          cases h
          rw [List.filterMap_cons, hf]
          rw [ih ps' hrest]
      | none =>
        rw [hf] at h
        by_cases hl : libMatches libs n = true
        · rw [if_pos hl] at h
          rw [List.filterMap_cons, hf]
          exact ih ps h
        · rw [if_neg hl] at h
          cases h

theorem resolvePaths_mapDeps (fileMap : String → Option String) (libs : List Lib) :
    ∀ ms, resolvePaths fileMap true libs ms = .ok (ms.filterMap fileMap) := by
  intro ms
  induction ms with
  | nil => rfl
  | cons n ns ih =>
    rw [resolvePaths_cons]
    cases hf : fileMap n with
    | some f =>
      rw [if_neg (by simp [hf])]
      rw [List.filterMap_cons, hf, ih]
      rfl
    | none =>
      rw [if_pos (by simp [hf])]
      rw [List.filterMap_cons, hf]
      exact ih

theorem resolvePaths_err (fileMap : String → Option String) (libs : List Lib) :
    ∀ ms n, n ∈ ms → fileMap n = none → libMatches libs n = false →
      ∃ b, b ∈ ms ∧ fileMap b = none ∧ libMatches libs b = false ∧
        resolvePaths fileMap false libs ms = .error (canNotObtainMsg b) := by
  intro ms
  induction ms with
  | nil => intro n hn; cases hn
  | cons n0 ns ih =>
    intro n hn hfn hln
    rw [resolvePaths_cons]
    rw [if_neg (by simp)]
    cases hf : fileMap n0 with
    | some f =>
      have hn' : n ∈ ns := by
        rcases List.mem_cons.mp hn with rfl | h'
        · rw [hf] at hfn; cases hfn
        · exact h'
      obtain ⟨b, hb, hb1, hb2, hb3⟩ := ih n hn' hfn hln
      exact ⟨b, List.mem_cons_of_mem _ hb, hb1, hb2, by rw [hb3]; rfl⟩
    | none =>
      by_cases hl : libMatches libs n0 = true
      · rw [if_pos hl]
        have hn' : n ∈ ns := by
          rcases List.mem_cons.mp hn with rfl | h'
          · rw [hl] at hln; cases hln
          · exact h'
        obtain ⟨b, hb, hb1, hb2, hb3⟩ := ih n hn' hfn hln
        exact ⟨b, List.mem_cons_of_mem _ hb, hb1, hb2, hb3⟩
      · rw [if_neg hl]
        exact ⟨n0, List.mem_cons_self _ _, hf, Bool.eq_false_iff.mpr hl, rfl⟩

theorem resolvePaths_ok_of_good (fileMap : String → Option String) (libs : List Lib) :
    ∀ ms, (∀ n, n ∈ ms → fileMap n = none → libMatches libs n = true) →
      resolvePaths fileMap false libs ms = .ok (ms.filterMap fileMap) := by
  intro ms
  induction ms with
  | nil => intro _; rfl
  | cons n ns ih =>
    intro hgood
    rw [resolvePaths_cons]
    rw [if_neg (by simp)]
    cases hf : fileMap n with
    | some f =>
      rw [List.filterMap_cons, hf]
      rw [ih (fun x hx => hgood x (List.mem_cons_of_mem _ hx))]
      rfl
    | none =>
      rw [if_pos (hgood n (List.mem_cons_self _ _) hf)]
      rw [List.filterMap_cons, hf]
      exact ih (fun x hx => hgood x (List.mem_cons_of_mem _ hx))

theorem resolvePaths_mem (fileMap : String → Option String) (mapDeps : Bool)
    (libs : List Lib) :
    ∀ ms ps f, resolvePaths fileMap mapDeps libs ms = .ok ps → f ∈ ps →
      ∃ n, n ∈ ms ∧ fileMap n = some f := by
  intro ms ps f h hf
  rw [resolvePaths_ok_shape fileMap mapDeps libs ms ps h] at hf
  obtain ⟨n, hn, hfn⟩ := List.mem_filterMap.mp hf
  exact ⟨n, hn, hfn⟩

theorem sortFilesCore_inv {fuel : Nat} {map : DepsMap} {fileMap : String → Option String}
    {standalone targets il ignoreMods : List String} {dOn : Option (List String)}
    {mapDeps : Bool} {libs : List Lib} {r : SortOutcome}
    (h : sortFilesCore fuel map fileMap standalone targets il ignoreMods dOn mapDeps libs =
      some (.ok r)) :
    ∃ allDep depMods st ps,
      depLists map fuel targets = some (allDep, depMods) ∧
      walkAll map il dOn fuel (workingMods targets depMods ignoreMods) initWalkState = some st ∧
      r.modules = (sortByDepthDesc st.depthMap
          (pickedOrAll dOn st.picked (workingMods targets depMods ignoreMods))).filter
        (fun m => !memb m st.discarded) ∧
      resolvePaths fileMap mapDeps libs r.modules = .ok ps ∧
      r.files = standalone ++ ps ∧
      r.notBundled = st.discarded ∧
      r.depModules = allDep ∧
      r.directDep = collectDirect map r.modules := by
  cases hdl : depLists map fuel targets with
  | none =>
    simp only [sortFilesCore, hdl] at h
    cases h
  | some pr =>
    obtain ⟨allDep, depMods⟩ := pr
    simp only [sortFilesCore, hdl] at h
    cases hw : walkAll map il dOn fuel (workingMods targets depMods ignoreMods)
        initWalkState with
    | none =>
      simp only [hw] at h
      cases h
    | some st =>
      simp only [hw] at h
      cases hr : resolvePaths fileMap mapDeps libs
          ((sortByDepthDesc st.depthMap
            (pickedOrAll dOn st.picked (workingMods targets depMods ignoreMods))).filter
            (fun m => !memb m st.discarded)) with
      | error e =>
        rw [hr] at h
        simp only [Except.map] at h
        cases h
      | ok ps =>
        rw [hr] at h
        simp only [Except.map] at h
        cases h
        refine ⟨allDep, depMods, st, ps, rfl, hw, rfl, ?_, rfl, rfl, rfl, rfl⟩
        exact hr

/-- The final depth map assigns an entry to every module of the sorted list. -/
theorem walkAll_mods2_entry {map : DepsMap} {il : List String} {dOn : Option (List String)}
    {fuel : Nat} {mods : List String} {st : WalkState}
    (hw : walkAll map il dOn fuel mods initWalkState = some st) :
    ∀ m, m ∈ pickedOrAll dOn st.picked mods → (st.depthMap m).isSome = true := by
  intro m hm
  cases dOn with
  | none => exact walkAll_root_entry map il none fuel mods initWalkState st hw m hm
  | some l =>
    have hpd : PickedHaveDepth st := by
      refine walkAll_preserve map il (some l) fuel PickedHaveDepth
        (fun x t t' hs hp => buildTreeItem_picked_depth map il (some l) fuel x 0 [] t t' hs
          (fun y hy => absurd hy (List.not_mem_nil y)) hp)
        mods initWalkState st hw ?_
      intro x hx
      cases hx
    exact hpd m hm

/-- C1: whenever chunk resolution completes, the final sorted module list is a
valid dependency order: a module in that list that survived discarding has
every dependency at a strictly greater recorded depth, hence every of its
dependencies also present in the list appears strictly before it. -/
theorem c1_sorted_dependency_order {fuel : Nat} {map : DepsMap}
    {fileMap : String → Option String} {standalone targets il ignoreMods : List String}
    {dOn : Option (List String)} {mapDeps : Bool} {libs : List Lib} {r : SortOutcome}
    (h : sortFilesCore fuel map fileMap standalone targets il ignoreMods dOn mapDeps libs =
      some (.ok r))
    (M D : String) (hM : M ∈ r.modules) (hD : D ∈ lookupDeps map M)
    (_hbang : hasBang D = false) (hDmem : D ∈ r.modules) :
    [D, M].Sublist r.modules := by
  obtain ⟨allDep, depMods, st, ps, hdl, hw, hmods, hres, hfiles, hnb, hdep, hdd⟩ :=
    sortFilesCore_inv h
  rw [hmods] at hM hDmem
  obtain ⟨hMs, hMnd⟩ := List.mem_filter.mp hM
  obtain ⟨hDs, hDnd⟩ := List.mem_filter.mp hDmem
  have hMnd' : M ∉ st.discarded := by simpa [memb] using hMnd
  have hM2 : M ∈ pickedOrAll dOn st.picked (workingMods targets depMods ignoreMods) :=
    (mem_sortByDepthDesc _ _ M).mp hMs
  have hD2 : D ∈ pickedOrAll dOn st.picked (workingMods targets depMods ignoreMods) :=
    (mem_sortByDepthDesc _ _ D).mp hDs
  obtain ⟨dM, hdM⟩ := Option.isSome_iff_exists.mp (walkAll_mods2_entry hw M hM2)
  have hlibinv : LibDepDiscarded map il st := by
    refine walkAll_preserve map il dOn fuel (LibDepDiscarded map il)
      (fun x t t' hs hp => buildTreeItem_libdep map il dOn fuel x 0 [] t t' hs hp)
      _ initWalkState st hw ?_
    intro m hm
    cases hm
  have hnolib : ∀ d, d ∈ lookupDeps map M → isLib il d = false := by
    intro d hd
    by_cases hc : isLib il d = true
    · exact absurd (hlibinv M (by simp [hdM]) ⟨d, hd, hc⟩) hMnd'
    · exact Bool.eq_false_iff.mpr hc
  have hgood : GoodAt map il st M dM := by
    rcases walkAll_raises map il dOn fuel _ initWalkState st hw M dM hdM with h1 | h1
    · cases h1
    · exact h1
  obtain ⟨dD, hdD, hlt⟩ := hgood hnolib D hD
  have hsub : [D, M].Sublist
      (sortByDepthDesc st.depthMap
        (pickedOrAll dOn st.picked (workingMods targets depMods ignoreMods))) :=
    sortByDepthDesc_before hD2 hM2 hdD hdM (Nat.lt_of_lt_of_le (Nat.lt_succ_self dM) hlt)
  rw [hmods]
  have hfilter := hsub.filter (fun m => !memb m st.discarded)
  have heq : List.filter (fun m => !memb m st.discarded) [D, M] = [D, M] := by
    simp only [List.filter_cons, hDnd, hMnd]
    rfl
  rwa [heq] at hfilter

theorem obtainDepsWith_cons (step : String → List String → Option (List String))
    (d : String) (ds list : List String) :
    obtainDepsWith step (d :: ds) list =
      if hasBang d then obtainDepsWith step ds (if memb d list then list else list ++ [d])
      else
        match step d (if memb d list then list else list ++ [d]) with
        | none => none
        | some list2 => obtainDepsWith step ds list2 := rfl

/-- Witness for C1 at a concrete two-module chain a depends on b. -/
theorem c1_sorted_dependency_order_witness :
    ∃ r : SortOutcome,
      sortFilesCore 10 [("a", ["b"]), ("b", [])]
        (fun n => if n = "a" then some ("fa") else if n = "b" then some ("fb") else none)
        [] ["a"] [] [] none false [] = some (.ok r) ∧
      [("b" : String), "a"].Sublist r.modules := by
  have h : sortFilesCore 10 [("a", ["b"]), ("b", [])]
      (fun n => if n = "a" then some ("fa") else if n = "b" then some ("fb") else none)
      [] ["a"] [] [] none false [] = some (.ok
        { files := ["fb", "fa"], modules := ["b", "a"], depModules := ["b"],
          directDep := ["b"], notBundled := [] }) := rfl
  exact ⟨_, h, c1_sorted_dependency_order h ("a") ("b") (by decide) (by decide)
    (by decide) (by decide)⟩

theorem obtainAllDeps_cyc_none :
    ∀ fuel, (∀ l, obtainAllDeps cycMap fuel ("A") l = none) ∧
      (∀ l, obtainAllDeps cycMap fuel ("B") l = none) := by
  intro fuel
  induction fuel with
  | zero => exact ⟨fun _ => rfl, fun _ => rfl⟩
  | succ n ih =>
    constructor
    · intro l
      show (match obtainAllDeps cycMap n ("B")
          (if memb ("B") l then l else l ++ [("B")]) with
        | none => none
        | some list2 => obtainDepsWith (fun d l' => obtainAllDeps cycMap n d l') [] list2) = none
      rw [ih.2]
    · intro l
      show (match obtainAllDeps cycMap n ("A")
          (if memb ("A") l then l else l ++ [("A")]) with
        | none => none
        | some list2 => obtainDepsWith (fun d l' => obtainAllDeps cycMap n d l') [] list2) = none
      rw [ih.1]

theorem buildTreeItem_cyc_none :
    ∀ fuel, (∀ depth path st, buildTreeItem cycMap [] none fuel ("A") depth path st = none) ∧
      (∀ depth path st, buildTreeItem cycMap [] none fuel ("B") depth path st = none) := by
  intro fuel
  induction fuel with
  | zero => exact ⟨fun _ _ _ => rfl, fun _ _ _ => rfl⟩
  | succ n ih =>
    constructor
    · intro depth path st
      show (match buildTreeItem cycMap [] none n ("B") (depth + 1) (path ++ [("A")])
          { st with depthMap := updateDepth st.depthMap ("A") depth } with
        | none => none
        | some t => walkDepsWith []
            (fun d u => buildTreeItem cycMap [] none n d (depth + 1) (path ++ [("A")]) u) [] t)
        = none
      rw [ih.2]
    · intro depth path st
      show (match buildTreeItem cycMap [] none n ("A") (depth + 1) (path ++ [("B")])
          { st with depthMap := updateDepth st.depthMap ("B") depth } with
        | none => none
        | some t => walkDepsWith []
            (fun d u => buildTreeItem cycMap [] none n d (depth + 1) (path ++ [("B")]) u) [] t)
        = none
      rw [ih.1]

/-- C2 counterexample: on the cyclic graph A requires B requires A, neither
`#obtainAllDeps` nor `#buildTreeItem` terminates, whatever recursion budget is
allowed: the membership test of `#obtainAllDeps` only guards the push, not the
recursive call, and `#buildTreeItem` re-descends into modules already on the
path, so the claimed visited guards do not exist. -/
theorem c2_counterexample :
    (¬ ∃ fuel, (obtainAllDeps cycMap fuel ("A") []).isSome = true) ∧
    (¬ ∃ fuel, (buildTreeItem cycMap [] none fuel ("A") 0 [] initWalkState).isSome = true) := by
  constructor
  · rintro ⟨fuel, h⟩
    rw [(obtainAllDeps_cyc_none fuel).1 []] at h
    cases h
  · rintro ⟨fuel, h⟩
    rw [(buildTreeItem_cyc_none fuel).1 0 [] initWalkState] at h
    cases h

/-- C2 (amended): on a dependency graph admitting a rank function that strictly
decreases along dependency edges (an acyclic graph), both `#obtainAllDeps` and
`#buildTreeItem` terminate once the recursion budget exceeds the rank of the
start module; on cyclic graphs neither need terminate, since an
already-discovered dependency is re-walked and a module already on the path is
re-descended into. -/
theorem c2_amended_termination (map : DepsMap) (il : List String)
    (dOn : Option (List String)) (rank : String → Nat)
    (hrank : ∀ name d, d ∈ lookupDeps map name → rank d < rank name) :
    ∀ fuel name, rank name < fuel →
      (∀ list, (obtainAllDeps map fuel name list).isSome = true) ∧
      (∀ depth path st, (buildTreeItem map il dOn fuel name depth path st).isSome = true) := by
  intro fuel
  induction fuel with
  | zero => intro name h; exact absurd h (Nat.not_lt_zero _)
  | succ n ih =>
    intro name hlt
    have hrn : ∀ d, d ∈ lookupDeps map name → rank d < n :=
      fun d hd => lt_of_lt_of_le (hrank name d hd) (Nat.lt_succ_iff.mp hlt)
    constructor
    · intro list
      show (obtainDepsWith (fun d l' => obtainAllDeps map n d l') (lookupDeps map name)
        list).isSome = true
      have hgen : ∀ ds, (∀ d, d ∈ ds → d ∈ lookupDeps map name) → ∀ l,
          (obtainDepsWith (fun d l' => obtainAllDeps map n d l') ds l).isSome = true := by
        intro ds
        induction ds with
        | nil => intro _ l; rfl
        | cons d dsx ihds =>
          intro hsub l
          rw [obtainDepsWith_cons]
          by_cases hb : hasBang d = true
          · rw [if_pos hb]
            exact ihds (fun x hx => hsub x (List.mem_cons_of_mem _ hx)) _
          · rw [if_neg hb]
            obtain ⟨l2, hl2⟩ := Option.isSome_iff_exists.mp
              ((ih d (hrn d (hsub d (List.mem_cons_self _ _)))).1
                (if memb d l then l else l ++ [d]))
            rw [hl2]
            exact ihds (fun x hx => hsub x (List.mem_cons_of_mem _ hx)) l2
      exact hgen (lookupDeps map name) (fun d hd => hd) list
    · intro depth path st
      rw [buildTreeItem_succ]
      by_cases hemp : (lookupDeps map name).isEmpty = true
      · rw [if_pos hemp]
        rfl
      · rw [if_neg hemp]
        by_cases hab : (checkDeps il dOn (path ++ [name]) (lookupDeps map name)
            { st with depthMap := updateDepth st.depthMap name depth }).2 = true
        · rw [if_pos hab]
          rfl
        · rw [if_neg hab]
          have hgen : ∀ ds, (∀ d, d ∈ ds → d ∈ lookupDeps map name) → ∀ t,
              (walkDepsWith il
                (fun d u => buildTreeItem map il dOn n d (depth + 1) (path ++ [name]) u)
                ds t).isSome = true := by
            intro ds
            induction ds with
            | nil => intro _ t; rfl
            | cons d dsx ihds =>
              intro hsub t
              rw [walkDepsWith_cons]
              by_cases hl : isLib il d = true
              · rw [if_pos hl]
                exact ihds (fun x hx => hsub x (List.mem_cons_of_mem _ hx)) t
              · rw [if_neg hl]
                obtain ⟨t2, ht2⟩ := Option.isSome_iff_exists.mp
                  ((ih d (hrn d (hsub d (List.mem_cons_self _ _)))).2 (depth + 1)
                    (path ++ [name]) t)
                rw [ht2]
                exact ihds (fun x hx => hsub x (List.mem_cons_of_mem _ hx)) t2
          exact hgen (lookupDeps map name) (fun d hd => hd) _

/-- Witness for the amended C2 on the acyclic chain A requires B. -/
theorem c2_amended_termination_witness :
    ((obtainAllDeps [("A", ["B"]), ("B", [])] 3 ("A") []).isSome = true) ∧
    ((buildTreeItem [("A", ["B"]), ("B", [])] [] none 3 ("A") 0 [] initWalkState).isSome
      = true) := by
  have h := c2_amended_termination [("A", ["B"]), ("B", [])] [] none
    (fun s => if s = "A" then 2 else 1) ?_ 3 ("A") (by decide)
  · exact ⟨h.1 [], h.2 0 [] initWalkState⟩
  · intro name d hd
    simp only [lookupDeps, alookup] at hd
    by_cases hA : ("A" : String) = name
    · rw [if_pos hA] at hd
      simp only [Option.getD_some] at hd
      rw [List.mem_singleton.mp hd]
      rw [← hA]
      decide
    · rw [if_neg hA] at hd
      by_cases hB : ("B" : String) = name
      · rw [if_pos hB] at hd
        simp only [Option.getD_some] at hd
        cases hd
      · rw [if_neg hB] at hd
        simp only [Option.getD_none] at hd
        cases hd

/-- C3 (amended): in a chain where A depends on B, B depends on C, and C
(after `lib!` stripping) is in the excluded libs, the walk discards A and B:
both land in `notBundledModules` and are dropped from the final module list.
C itself is NOT discarded — the discard loop pushes only the path (root up to
the module whose dependency matched), never the matched lib id itself, and C
is never descended into — so C never appears in `notBundledModules`; being a
fileless lib id it is silently dropped at the resolution step instead. -/
theorem c3_amended_discard_propagation {fuel : Nat} {map : DepsMap}
    {fileMap : String → Option String} {standalone targets il ignoreMods : List String}
    {dOn : Option (List String)} {mapDeps : Bool} {libs : List Lib} {r : SortOutcome}
    {allDep depMods : List String} (A B C : String)
    (h : sortFilesCore fuel map fileMap standalone targets il ignoreMods dOn mapDeps libs =
      some (.ok r))
    (hdl : depLists map fuel targets = some (allDep, depMods))
    (hA : A ∈ workingMods targets depMods ignoreMods)
    (hB : B ∈ workingMods targets depMods ignoreMods)
    (hAB : B ∈ lookupDeps map A) (hBC : C ∈ lookupDeps map B)
    (hCl : isLib il C = true) (hCd : lookupDeps map C = []) :
    A ∈ r.notBundled ∧ B ∈ r.notBundled ∧ C ∉ r.notBundled ∧
      A ∉ r.modules ∧ B ∉ r.modules := by
  obtain ⟨allDep', depMods', st, ps, hdl', hw, hmods, hres, hfiles, hnb, hdep, hdd⟩ :=
    sortFilesCore_inv h
  rw [hdl] at hdl'
  cases hdl'
  have hBdisc : B ∈ st.discarded := by
    obtain ⟨t, t', hcall, hsub⟩ := walkAll_calls map il dOn fuel _ initWalkState st hw B hB
    exact hsub B (buildTreeItem_discards map il dOn fuel B 0 [] t t' hcall ⟨C, hBC, hCl⟩ B
      (List.mem_append_right _ (List.mem_singleton.mpr rfl)))
  have hAdisc : A ∈ st.discarded := by
    obtain ⟨t, t', hcall, hsub⟩ := walkAll_calls map il dOn fuel _ initWalkState st hw A hA
    exact hsub A (buildTreeItem_discards_via map il dOn fuel A 0 [] t t' B hcall hAB
      ⟨C, hBC, hCl⟩)
  have hCnd : C ∉ st.discarded := by
    refine walkAll_preserve map il dOn fuel (fun t => C ∉ t.discarded)
      (fun m t t' hs hp => buildTreeItem_no_discard map il dOn C hCd fuel m 0 [] t t' hs
        (List.not_mem_nil C) hp) _ initWalkState st hw ?_
    exact List.not_mem_nil C
  have hnotmods : ∀ x, x ∈ st.discarded → x ∉ r.modules := by
    intro x hx hmem
    rw [hmods] at hmem
    obtain ⟨-, hp⟩ := List.mem_filter.mp hmem
    have : x ∉ st.discarded := by simpa [memb] using hp
    exact this hx
  rw [hnb]
  exact ⟨hAdisc, hBdisc, hCnd, hnotmods A hAdisc, hnotmods B hBdisc⟩

/-- C3 counterexample: target A with chain A depends on B depends on C, where
C is an excluded lib with a configured amdId and no file. The claim predicts
A, B and C all in `notBundledModules`; the code puts only A and B there: C is
never discarded - it survives to the resolution step, is dropped from the
file list via the amdId match, and the chunk output is empty. -/
theorem c3_counterexample :
    ∃ r : SortOutcome,
      sortFilesCore 10 [("A", ["B"]), ("B", ["C"])]
        (fun n => if n = "A" then some ("fA") else if n = "B" then some ("fB") else none)
        [] ["A"] ["C"] [] none false [{ amdId := some ("C"), bundle := false }] =
          some (.ok r) ∧
      ("C" : String) ∉ r.notBundled ∧ ("A" : String) ∈ r.notBundled ∧
      ("B" : String) ∈ r.notBundled ∧ r.files = [] := by
  refine ⟨{ files := [], modules := ["C"], depModules := ["B", "C"],
            directDep := [], notBundled := ["A", "B"] }, rfl, ?_, ?_, ?_, rfl⟩
  · decide
  · decide
  · decide

/-- Witness for the amended C3 at the concrete counterexample instance. -/
theorem c3_amended_discard_propagation_witness :
    ∃ r : SortOutcome,
      sortFilesCore 10 [("A", ["B"]), ("B", ["C"])]
        (fun n => if n = "A" then some ("fA") else if n = "B" then some ("fB") else none)
        [] ["A"] ["C"] [] none false [{ amdId := some ("C"), bundle := false }] =
          some (.ok r) ∧
      ("A" : String) ∈ r.notBundled ∧ ("B" : String) ∈ r.notBundled ∧
      ("C" : String) ∉ r.notBundled ∧ ("A" : String) ∉ r.modules ∧
      ("B" : String) ∉ r.modules := by
  have h : sortFilesCore 10 [("A", ["B"]), ("B", ["C"])]
      (fun n => if n = "A" then some ("fA") else if n = "B" then some ("fB") else none)
      [] ["A"] ["C"] [] none false [{ amdId := some ("C"), bundle := false }] =
        some (.ok
          { files := []
            modules := ["C"]
            depModules := ["B", "C"]
            directDep := []
            notBundled := ["A", "B"] }) := rfl
  have hdl : depLists [("A", ["B"]), ("B", ["C"])] 10 ["A"] =
      some (["B", "C"], ["B", "C"]) := rfl
  have hc := c3_amended_discard_propagation ("A") ("B") ("C") h hdl (by decide) (by decide)
    (by decide) (by decide) (by decide) (by decide)
  exact ⟨_, h, hc.1, hc.2.1, hc.2.2.1, hc.2.2.2.1, hc.2.2.2.2⟩

theorem obtainDepsWith_acc_mono {step : String → List String → Option (List String)}
    (hmono : ∀ d l l', step d l = some l' → ∀ x, x ∈ l → x ∈ l') :
    ∀ ds acc l, obtainDepsWith step ds acc = some l → ∀ x, x ∈ acc → x ∈ l := by
  intro ds
  induction ds with
  | nil => intro acc l h x hx; cases h; exact hx
  | cons d dsx ih =>
    intro acc l h x hx
    rw [obtainDepsWith_cons] at h
    have hacc1 : x ∈ (if memb d acc then acc else acc ++ [d]) := by
      by_cases hm : memb d acc = true
      · rw [if_pos hm]; exact hx
      · rw [if_neg hm]; exact List.mem_append_left _ hx
    by_cases hb : hasBang d = true
    · rw [if_pos hb] at h
      exact ih _ l h x hacc1
    · rw [if_neg hb] at h
      cases hs : step d (if memb d acc then acc else acc ++ [d]) with
      | none => rw [hs] at h; cases h
      | some l2 =>
        rw [hs] at h
        exact ih l2 l h x (hmono d _ l2 hs x hacc1)

theorem obtainAllDeps_acc_mono (map : DepsMap) :
    ∀ fuel name acc l, obtainAllDeps map fuel name acc = some l → ∀ x, x ∈ acc → x ∈ l := by
  intro fuel
  induction fuel with
  | zero => intro name acc l h; cases h
  | succ n ih =>
    intro name acc l h
    exact obtainDepsWith_acc_mono (fun d l1 l2 hs => ih d l1 l2 hs) _ acc l h

theorem obtainDepsWith_records {step : String → List String → Option (List String)}
    (hmono : ∀ d l l', step d l = some l' → ∀ x, x ∈ l → x ∈ l') :
    ∀ ds acc l, obtainDepsWith step ds acc = some l → ∀ d, d ∈ ds → d ∈ l := by
  intro ds
  induction ds with
  | nil => intro acc l h d hd; cases hd
  | cons d0 dsx ih =>
    intro acc l h d hd
    rw [obtainDepsWith_cons] at h
    have hd0 : d0 ∈ (if memb d0 acc then acc else acc ++ [d0]) := by
      by_cases hm : memb d0 acc = true
      · rw [if_pos hm]; exact memb_iff.mp hm
      · rw [if_neg hm]; exact List.mem_append_right _ (List.mem_singleton.mpr rfl)
    by_cases hb : hasBang d0 = true
    · rw [if_pos hb] at h
      rcases List.mem_cons.mp hd with rfl | hd'
      · exact obtainDepsWith_acc_mono hmono _ _ l h d hd0
      · exact ih _ l h d hd'
    · rw [if_neg hb] at h
      cases hs : step d0 (if memb d0 acc then acc else acc ++ [d0]) with
      | none => rw [hs] at h; cases h
      | some l2 =>
        rw [hs] at h
        rcases List.mem_cons.mp hd with rfl | hd'
        · exact obtainDepsWith_acc_mono hmono _ _ l h d (hmono d _ l2 hs d hd0)
        · exact ih l2 l h d hd'

theorem obtainDepsWith_sound {map : DepsMap} {name : String}
    {step : String → List String → Option (List String)}
    (hstep : ∀ d l l', step d l = some l' → ∀ x, x ∈ l' → x ∈ l ∨ ReachNB map d x) :
    ∀ ds, (∀ d, d ∈ ds → d ∈ lookupDeps map name) →
      ∀ acc l, obtainDepsWith step ds acc = some l →
        ∀ x, x ∈ l → x ∈ acc ∨ ReachNB map name x := by
  intro ds
  induction ds with
  | nil => intro _ acc l h x hx; cases h; exact Or.inl hx
  | cons d dsx ih =>
    intro hsub acc l h x hx
    rw [obtainDepsWith_cons] at h
    have hsub' : ∀ y, y ∈ dsx → y ∈ lookupDeps map name :=
      fun y hy => hsub y (List.mem_cons_of_mem _ hy)
    have hdmem : d ∈ lookupDeps map name := hsub d (List.mem_cons_self _ _)
    have hacc1 : ∀ y, y ∈ (if memb d acc then acc else acc ++ [d]) → y ∈ acc ∨ y = d := by
      intro y hy
      by_cases hm : memb d acc = true
      · rw [if_pos hm] at hy; exact Or.inl hy
      · rw [if_neg hm] at hy
        rcases List.mem_append.mp hy with h1 | h1
        · exact Or.inl h1
        · exact Or.inr (List.mem_singleton.mp h1)
    by_cases hb : hasBang d = true
    · rw [if_pos hb] at h
      rcases ih hsub' _ l h x hx with h1 | h1
      · rcases hacc1 x h1 with h2 | rfl
        · exact Or.inl h2
        · exact Or.inr (ReachNB.direct hdmem)
      · exact Or.inr h1
    · rw [if_neg hb] at h
      cases hs : step d (if memb d acc then acc else acc ++ [d]) with
      | none => rw [hs] at h; cases h
      | some l2 =>
        rw [hs] at h
        rcases ih hsub' l2 l h x hx with h1 | h1
        · rcases hstep d _ l2 hs x h1 with h2 | h2
          · rcases hacc1 x h2 with h3 | rfl
            · exact Or.inl h3
            · exact Or.inr (ReachNB.direct hdmem)
          · exact Or.inr (ReachNB.step hdmem (Bool.eq_false_iff.mpr hb) h2)
        · exact Or.inr h1

theorem obtainAllDeps_sound (map : DepsMap) :
    ∀ fuel name acc l, obtainAllDeps map fuel name acc = some l →
      ∀ x, x ∈ l → x ∈ acc ∨ ReachNB map name x := by
  intro fuel
  induction fuel with
  | zero => intro name acc l h; cases h
  | succ n ih =>
    intro name acc l h
    exact obtainDepsWith_sound (fun d l1 l2 hs => ih d l1 l2 hs)
      (lookupDeps map name) (fun d hd => hd) acc l h

theorem depListsGo_bangfree (map : DepsMap) (fuel : Nat) (targets : List String) :
    ∀ ns allAcc depAcc allOut depOut,
      depListsGo map fuel targets ns (allAcc, depAcc) = some (allOut, depOut) →
      (∀ d, d ∈ depAcc → hasBang d = false) →
      ∀ d, d ∈ depOut → hasBang d = false := by
  intro ns
  induction ns with
  | nil => intro allAcc depAcc allOut depOut h hacc; cases h; exact hacc
  | cons n nsx ih =>
    intro allAcc depAcc allOut depOut h hacc
    simp only [depListsGo] at h
    cases ho : obtainAllDeps map fuel n [] with
    | none => rw [ho] at h; cases h
    | some deps =>
      rw [ho] at h
      refine ih _ _ allOut depOut h ?_
      intro d hd
      rcases List.mem_append.mp hd with h1 | h1
      · exact hacc d h1
      · have hflt := (List.mem_filter.mp h1).2
        simp only [Bool.and_eq_true] at hflt
        have hb := hflt.1.1
        simpa using hb

theorem depLists_bangfree {map : DepsMap} {fuel : Nat} {targets allDep depMods : List String}
    (h : depLists map fuel targets = some (allDep, depMods)) :
    ∀ d, d ∈ depMods → hasBang d = false := by
  exact depListsGo_bangfree map fuel targets targets [] [] allDep depMods h
    (fun d hd => absurd hd (List.not_mem_nil d))

theorem sortFilesCore_no_bang {fuel : Nat} {map : DepsMap}
    {fileMap : String → Option String} {standalone targets il ignoreMods : List String}
    {dOn : Option (List String)} {mapDeps : Bool} {libs : List Lib} {r : SortOutcome}
    (h : sortFilesCore fuel map fileMap standalone targets il ignoreMods dOn mapDeps libs =
      some (.ok r))
    (hmap : ∀ d, hasBang d = true → lookupDeps map d = [])
    (htargets : ∀ t, t ∈ targets → hasBang t = false) :
    ∀ m, m ∈ r.modules → hasBang m = false := by
  obtain ⟨allDep, depMods, st, ps, hdl, hw, hmods, hres, hfiles, hnb, hdep, hdd⟩ :=
    sortFilesCore_inv h
  intro m hm
  rw [hmods] at hm
  have hm2 : m ∈ pickedOrAll dOn st.picked (workingMods targets depMods ignoreMods) :=
    (mem_sortByDepthDesc _ _ m).mp (List.mem_filter.mp hm).1
  cases dOn with
  | none =>
    have hmw : m ∈ workingMods targets depMods ignoreMods := hm2
    rcases List.mem_append.mp (List.mem_filter.mp hmw).1 with h1 | h1
    · exact htargets m h1
    · exact depLists_bangfree hdl m h1
  | some l =>
    have hpb : ∀ x, x ∈ st.picked → hasBang x = false := by
      refine walkAll_preserve map il (some l) fuel (fun t => ∀ x, x ∈ t.picked → hasBang x = false)
        (fun y t t' hs hp => buildTreeItem_picked_bangfree map il (some l) hmap fuel y 0 [] t t' hs
          (fun z hz => absurd hz (List.not_mem_nil z)) hp)
        _ initWalkState st hw ?_
      intro x hx
      cases hx
    exact hpb m hm2

/-- C4 (amended): a plugin-marked dependency id is recorded in the closure,
the closure expands nothing through a plugin-marked id (everything discovered
is reachable via marker-free intermediate hops), and plugin-marked ids never
reach the file-resolution step; but ONLY the `lib!` marker is stripped before
matching against `excludedLibs` / `dependentOn` — an id with any other plugin
marker (e.g. `text!foo/bar`) is compared whole, not by its stripped tail. -/
theorem c4_amended_plugin_ids :
    (∀ (il : List String) (d : String), d.data.take 4 ≠ libMark → isLib il d = memb d il) ∧
    (∀ (il : List String) (d : String), d.data.take 4 = libMark →
      isLib il d = memb (String.mk (d.data.drop 4)) il) ∧
    (∀ (dOn : List String) (d : String), d.data.take 4 ≠ libMark →
      depMatched (some dOn) d = memb d dOn) ∧
    (∀ (map : DepsMap) (fuel : Nat) (name : String) (l : List String),
      obtainAllDeps map fuel name [] = some l →
      (∀ d, d ∈ lookupDeps map name → d ∈ l) ∧ (∀ x, x ∈ l → ReachNB map name x)) ∧
    (∀ (fuel : Nat) (map : DepsMap) (fileMap : String → Option String)
      (standalone targets il ignoreMods : List String) (dOn : Option (List String))
      (mapDeps : Bool) (libs : List Lib) (r : SortOutcome),
      sortFilesCore fuel map fileMap standalone targets il ignoreMods dOn mapDeps libs =
        some (.ok r) →
      (∀ d, hasBang d = true → lookupDeps map d = []) →
      (∀ t, t ∈ targets → hasBang t = false) →
      ∀ m, m ∈ r.modules → hasBang m = false) := by
  refine ⟨?_, ?_, ?_, ?_, ?_⟩
  · intro il d hne
    unfold isLib stripLib
    rw [if_neg hne]
  · intro il d he
    unfold isLib stripLib
    rw [if_pos he]
  · intro dOn d hne
    unfold depMatched stripLib
    rw [if_neg hne]
  · intro map fuel name l h
    cases fuel with
    | zero => cases h
    | succ n =>
      constructor
      · intro d hd
        exact obtainDepsWith_records (fun y l1 l2 hs => obtainAllDeps_acc_mono map n y l1 l2 hs)
          (lookupDeps map name) [] l h d hd
      · intro x hx
        rcases obtainAllDeps_sound map (n + 1) name [] l h x hx with h1 | h1
        · cases h1
        · exact h1
  · intro fuel map fileMap standalone targets il ignoreMods dOn mapDeps libs r h hmap htargets
    exact sortFilesCore_no_bang h hmap htargets

/-- C4 counterexample: the dependency `text!x` has stripped tail `x`, and `x`
is in `excludedLibs`; the claim says the stripped tail is matched, so A should
be discarded — but the code strips only `lib!`, compares `text!x` whole,
finds no match, and bundles A with nothing discarded (while the `lib!x`
spelling does match). -/
theorem c4_counterexample :
    isLib ["x"] ("text!x") = false ∧ isLib ["x"] ("lib!x") = true ∧
    ∃ r : SortOutcome,
      sortFilesCore 10 [("A", ["text!x"])] (fun n => if n = "A" then some ("fA") else none)
        [] ["A"] ["x"] [] none false [] = some (.ok r) ∧
      r.modules = ["A"] ∧ r.notBundled = [] ∧ r.files = ["fA"] := by
  refine ⟨by decide, by decide,
    { files := ["fA"]
      modules := ["A"]
      depModules := ["text!x"]
      directDep := ["text!x"]
      notBundled := [] }, rfl, rfl, rfl, rfl⟩

/-- Witness for the amended C4 on concrete ids and a concrete closure. -/
theorem c4_amended_plugin_ids_witness :
    isLib ["x"] ("text!x") = memb ("text!x") ["x"] ∧
    isLib ["x"] ("lib!x") = memb ("x") ["x"] ∧
    depMatched (some ["x"]) ("text!x") = memb ("text!x") ["x"] ∧
    (("text!x" : String) ∈ (["text!x"] : List String) ∧
      ReachNB [("A", ["text!x"])] ("A") ("text!x")) ∧
    hasBang ("A") = false := by
  obtain ⟨h1, h2, h3, h4, h5⟩ := c4_amended_plugin_ids
  refine ⟨h1 ["x"] ("text!x") (by decide), ?_, h3 ["x"] ("text!x") (by decide), ?_, ?_⟩
  · rw [h2 ["x"] ("lib!x") (by decide)]
    decide
  · have h := h4 [("A", ["text!x"])] 5 ("A") ["text!x"] rfl
    exact ⟨h.1 ("text!x") (by decide), h.2 ("text!x") (by decide)⟩
  · have hrun : sortFilesCore 10 [("A", ["text!x"])]
        (fun n => if n = "A" then some ("fA") else none) [] ["A"] ["x"] [] none false [] =
        some (.ok
          { files := ["fA"]
            modules := ["A"]
            depModules := ["text!x"]
            directDep := ["text!x"]
            notBundled := [] }) := rfl
    have hmap : ∀ d, hasBang d = true → lookupDeps [("A", ["text!x"])] d = [] := by
      intro d hd
      simp only [lookupDeps, alookup]
      by_cases hA : ("A" : String) = d
      · rw [← hA] at hd
        cases hd
      · rw [if_neg hA]
        rfl
    have := h5 10 [("A", ["text!x"])] (fun n => if n = "A" then some ("fA") else none)
      [] ["A"] ["x"] [] none false [] _ hrun hmap (by decide)
    exact this ("A") (by decide)

theorem resolvePaths_error_inv (fileMap : String → Option String) (mapDeps : Bool)
    (libs : List Lib) :
    ∀ ms e, resolvePaths fileMap mapDeps libs ms = .error e →
      ∃ b, b ∈ ms ∧ fileMap b = none ∧ libMatches libs b = false ∧
        e = canNotObtainMsg b := by
  intro ms
  induction ms with
  | nil => intro e h; cases h
  | cons n ns ih =>
    intro e h
    rw [resolvePaths_cons] at h
    by_cases hskip : ((fileMap n).isNone && mapDeps) = true
    · rw [if_pos hskip] at h
      obtain ⟨b, hb, hb1, hb2, hb3⟩ := ih e h
      exact ⟨b, List.mem_cons_of_mem _ hb, hb1, hb2, hb3⟩
    · rw [if_neg hskip] at h
      cases hf : fileMap n with
      | some f =>
        rw [hf] at h
        cases hrest : resolvePaths fileMap mapDeps libs ns with
        | error e' =>
          rw [hrest] at h
          cases h
          obtain ⟨b, hb, hb1, hb2, hb3⟩ := ih _ hrest
          exact ⟨b, List.mem_cons_of_mem _ hb, hb1, hb2, hb3⟩
        | ok ps => rw [hrest] at h; cases h
      | none =>
        rw [hf] at h
        by_cases hl : libMatches libs n = true
        · rw [if_pos hl] at h
          obtain ⟨b, hb, hb1, hb2, hb3⟩ := ih e h
          exact ⟨b, List.mem_cons_of_mem _ hb, hb1, hb2, hb3⟩
        · rw [if_neg hl] at h
          cases h
          exact ⟨n, List.mem_cons_self _ _, hf, Bool.eq_false_iff.mpr hl, rfl⟩

theorem sortFilesCore_error_inv {fuel : Nat} {map : DepsMap}
    {fileMap : String → Option String} {standalone targets il ignoreMods : List String}
    {dOn : Option (List String)} {mapDeps : Bool} {libs : List Lib} {e : String}
    (h : sortFilesCore fuel map fileMap standalone targets il ignoreMods dOn mapDeps libs =
      some (.error e)) :
    ∃ b, fileMap b = none ∧ libMatches libs b = false ∧ e = canNotObtainMsg b := by
  cases hdl : depLists map fuel targets with
  | none =>
    simp only [sortFilesCore, hdl] at h
    cases h
  | some pr =>
    obtain ⟨allDep, depMods⟩ := pr
    simp only [sortFilesCore, hdl] at h
    cases hw : walkAll map il dOn fuel (workingMods targets depMods ignoreMods)
        initWalkState with
    | none =>
      simp only [hw] at h
      cases h
    | some st =>
      simp only [hw] at h
      cases hr : resolvePaths fileMap mapDeps libs
          ((sortByDepthDesc st.depthMap
            (pickedOrAll dOn st.picked (workingMods targets depMods ignoreMods))).filter
            (fun m => !memb m st.discarded)) with
      | error e' =>
        rw [hr] at h
        simp only [Except.map] at h
        cases h
        obtain ⟨b, -, hb1, hb2, hb3⟩ := resolvePaths_error_inv fileMap mapDeps libs _ _ hr
        exact ⟨b, hb1, hb2, hb3⟩
      | ok ps =>
        rw [hr] at h
        simp only [Except.map] at h
        cases h

/-- C5: with `mapDependencies` unset, a module of the final list with no file
and no matching library amdId makes the resolution step abort with the fatal
error naming such a module; when every fileless module matches a library
amdId, resolution succeeds and those names are dropped from the file list
without error; and every fatal abort of the whole chunk resolution is exactly
such an error, naming a fileless name with no matching amdId. -/
theorem c5_unresolvable_fatal :
    (∀ (fileMap : String → Option String) (libs : List Lib) (ms : List String) (m : String),
      m ∈ ms → fileMap m = none → libMatches libs m = false →
      ∃ b, b ∈ ms ∧ fileMap b = none ∧ libMatches libs b = false ∧
        resolvePaths fileMap false libs ms = .error (canNotObtainMsg b)) ∧
    (∀ (fileMap : String → Option String) (libs : List Lib) (ms : List String),
      (∀ m, m ∈ ms → fileMap m = none → libMatches libs m = true) →
      resolvePaths fileMap false libs ms = .ok (ms.filterMap fileMap)) ∧
    (∀ (fuel : Nat) (map : DepsMap) (fileMap : String → Option String)
      (standalone targets il ignoreMods : List String) (dOn : Option (List String))
      (libs : List Lib) (e : String),
      sortFilesCore fuel map fileMap standalone targets il ignoreMods dOn false libs =
        some (.error e) →
      ∃ b, fileMap b = none ∧ libMatches libs b = false ∧ e = canNotObtainMsg b) := by
  refine ⟨?_, ?_, ?_⟩
  · intro fileMap libs ms m hm hf hl
    exact resolvePaths_err fileMap libs ms m hm hf hl
  · intro fileMap libs ms hgood
    exact resolvePaths_ok_of_good fileMap libs ms hgood
  · intro fuel map fileMap standalone targets il ignoreMods dOn libs e h
    exact sortFilesCore_error_inv h

/-- Witness for C5: on the final list with the fileless name Z, resolution
errors naming Z; with Z declared as a library amdId it is dropped silently;
and the whole concrete chunk resolution aborts with exactly that message. -/
theorem c5_unresolvable_fatal_witness :
    (∃ b, b ∈ (["Z", "A"] : List String) ∧
      (fun n => if n = "A" then some ("fa") else none) b = none ∧
      libMatches [] b = false ∧
      resolvePaths (fun n => if n = "A" then some ("fa") else none) false [] ["Z", "A"] =
        .error (canNotObtainMsg b)) ∧
    resolvePaths (fun n => if n = "A" then some ("fa") else none) false
      [{ amdId := some ("Z"), bundle := true }] ["Z", "A"] = .ok ["fa"] ∧
    (∃ b, (fun n => if n = "A" then some ("fa") else none) b = none ∧
      libMatches ([] : List Lib) b = false ∧
      canNotObtainMsg ("Z") = canNotObtainMsg b) := by
  obtain ⟨h1, h2, h3⟩ := c5_unresolvable_fatal
  refine ⟨?_, ?_, ?_⟩
  · exact h1 (fun n => if n = "A" then some ("fa") else none) [] ["Z", "A"] ("Z")
      (by decide) (by decide) (by decide)
  · have := h2 (fun n => if n = "A" then some ("fa") else none)
      [{ amdId := some ("Z"), bundle := true }] ["Z", "A"] ?_
    · exact this
    · intro m hm hf
      rcases List.mem_cons.mp hm with rfl | hm'
      · decide
      · rcases List.mem_cons.mp hm' with rfl | hm''
        · cases hf
        · cases hm''
  · exact h3 10 [("A", ["Z"])] (fun n => if n = "A" then some ("fa") else none)
      [] ["A"] [] [] none [] (canNotObtainMsg ("Z")) rfl

/-- C10: when a chunk sets `mapDependencies`, resolution never raises the
fatal error: every fileless module (amdId match or not) is silently dropped
and the file list is exactly the modules that do resolve, in order; hence the
whole chunk resolution never returns the fatal error for such a chunk. -/
theorem c10_mapDependencies_silent_drop :
    (∀ (fileMap : String → Option String) (libs : List Lib) (ms : List String),
      resolvePaths fileMap true libs ms = .ok (ms.filterMap fileMap)) ∧
    (∀ (fuel : Nat) (map : DepsMap) (fileMap : String → Option String)
      (standalone targets il ignoreMods : List String) (dOn : Option (List String))
      (libs : List Lib) (e : String),
      sortFilesCore fuel map fileMap standalone targets il ignoreMods dOn true libs ≠
        some (.error e)) := by
  constructor
  · intro fileMap libs ms
    exact resolvePaths_mapDeps fileMap libs ms
  · intro fuel map fileMap standalone targets il ignoreMods dOn libs e h
    cases hdl : depLists map fuel targets with
    | none =>
      simp only [sortFilesCore, hdl] at h
      cases h
    | some pr =>
      obtain ⟨allDep, depMods⟩ := pr
      simp only [sortFilesCore, hdl] at h
      cases hw : walkAll map il dOn fuel (workingMods targets depMods ignoreMods)
          initWalkState with
      | none =>
        simp only [hw] at h
        cases h
      | some st =>
        simp only [hw] at h
        rw [resolvePaths_mapDeps fileMap libs _] at h
        simp only [Except.map] at h
        cases h

/-- Witness for C10: a module with no file and no amdId is dropped silently
under `mapDependencies`, and the concrete chunk resolution does not abort. -/
theorem c10_mapDependencies_silent_drop_witness :
    resolvePaths (fun n => if n = "A" then some ("fa") else none) true [] ["Z", "A"] =
      .ok ["fa"] ∧
    sortFilesCore 10 [("A", ["Z"])] (fun n => if n = "A" then some ("fa") else none)
      [] ["A"] [] [] none true [] ≠ some (.error (canNotObtainMsg ("Z"))) := by
  obtain ⟨h1, h2⟩ := c10_mapDependencies_silent_drop
  constructor
  · exact h1 (fun n => if n = "A" then some ("fa") else none) [] ["Z", "A"]
  · exact h2 10 [("A", ["Z"])] (fun n => if n = "A" then some ("fa") else none)
      [] ["A"] [] [] none [] (canNotObtainMsg ("Z"))

/-- C6: with `dependentOn = [X]` configured, targets A and Y, the chain A
depends on B depends on X (X fileless, declared as a non-bundled lib whose
amdId is therefore excluded from `ignoreLibs` by the dependentOn override),
the final module set is exactly B then A: both modules on the path through X
are picked and kept, nothing is discarded, and the unrelated module Y with no
path to X is dropped even though it was never discarded. -/
theorem c6_dependent_on_filtering :
    ∃ r : SortOutcome,
      sortFilesCore 10 [("A", ["B"]), ("B", ["X"]), ("Y", [])]
        (fun n => if n = "A" then some ("fA") else if n = "B" then some ("fB")
          else if n = "Y" then some ("fY") else none)
        [] ["A", "Y"]
        (ignoreLibsOf [{ amdId := some ("X"), bundle := false }] (some ["X"]))
        [] (some ["X"]) false [{ amdId := some ("X"), bundle := false }] =
          some (.ok r) ∧
      r.modules = ["B", "A"] ∧ r.files = ["fB", "fA"] ∧ r.notBundled = [] ∧
      ("Y" : String) ∉ r.modules ∧ ("X" : String) ∉ r.modules := by
  refine ⟨{ files := ["fB", "fA"]
            modules := ["B", "A"]
            depModules := ["B", "X"]
            directDep := ["X", "B"]
            notBundled := [] }, rfl, rfl, rfl, rfl, by decide, by decide⟩

theorem foldl_preserve {α β : Type} (f : α → β → α) (P : α → Prop)
    (hf : ∀ a b, P a → P (f a b)) : ∀ (l : List β) (a : α), P a → P (l.foldl f a) := by
  intro l
  induction l with
  | nil => intro a h; exact h
  | cons b bs ih => intro a h; exact ih (f a b) (hf a b h)

theorem alookup_assocSet {α : Type} (k : String) (v : α) :
    ∀ (l : List (String × α)) (n : String),
      alookup (assocSet l k v) n = if k = n then some v else alookup l n := by
  intro l
  induction l with
  | nil => intro n; rfl
  | cons p t ih =>
    intro n
    obtain ⟨k', v'⟩ := p
    simp only [assocSet]
    by_cases hk : k' = k
    · rw [if_pos hk]
      subst hk
      simp only [alookup]
      by_cases hn : k' = n
      · rw [if_pos hn, if_pos hn]
      · rw [if_neg hn, if_neg hn, if_neg hn]
    · rw [if_neg hk]
      simp only [alookup]
      by_cases hn : k' = n
      · rw [if_pos hn, if_pos hn]
        subst hn
        rw [if_neg (fun he => hk he.symm)]
      · rw [if_neg hn, if_neg hn, ih n]

theorem buildIndexStep_standalone (env : Env) (targetFiles : List String) :
    ∀ acc f, (∀ x, x ∈ acc.standalone → x ∈ targetFiles) →
      ∀ x, x ∈ (buildIndexStep env targetFiles acc f).standalone → x ∈ targetFiles := by
  intro acc f hp x hx
  unfold buildIndexStep at hx
  cases hd : env.depsOf f with
  | none =>
    rw [hd] at hx
    by_cases ht : memb f targetFiles = true
    · rw [if_pos ht] at hx
      simp only [List.mem_append] at hx
      rcases hx with h1 | h1
      · exact hp x h1
      · rw [List.mem_singleton.mp h1]
        exact memb_iff.mp ht
    · rw [if_neg ht] at hx
      exact hp x hx
  | some deps =>
    rw [hd] at hx
    exact hp x hx

theorem buildIndex_standalone (env : Env) (allFiles targetFiles : List String) :
    ∀ x, x ∈ (buildIndex env allFiles targetFiles).standalone → x ∈ targetFiles := by
  exact foldl_preserve (buildIndexStep env targetFiles)
    (fun acc => ∀ x, x ∈ acc.standalone → x ∈ targetFiles)
    (buildIndexStep_standalone env targetFiles) allFiles
    { map := [], fileMap := [], standalone := [], targetMods := [] }
    (fun x hx => absurd hx (List.not_mem_nil x))

theorem buildIndexStep_fileMap (env : Env) (targetFiles : List String) :
    ∀ acc g, (∀ m f, alookup acc.fileMap m = some f → env.nameOf f = m) →
      ∀ m f, alookup (buildIndexStep env targetFiles acc g).fileMap m = some f →
        env.nameOf f = m := by
  intro acc g hp m f hx
  unfold buildIndexStep at hx
  cases hd : env.depsOf g with
  | none =>
    rw [hd] at hx
    by_cases ht : memb g targetFiles = true
    · rw [if_pos ht] at hx
      exact hp m f hx
    · rw [if_neg ht] at hx
      exact hp m f hx
  | some deps =>
    rw [hd] at hx
    simp only at hx
    rw [alookup_assocSet] at hx
    by_cases hn : env.nameOf g = m
    · rw [if_pos hn] at hx
      cases hx
      exact hn
    · rw [if_neg hn] at hx
      exact hp m f hx

theorem buildIndex_fileMap (env : Env) (allFiles targetFiles : List String) :
    ∀ m f, alookup (buildIndex env allFiles targetFiles).fileMap m = some f →
      env.nameOf f = m := by
  exact foldl_preserve (buildIndexStep env targetFiles)
    (fun acc => ∀ m f, alookup acc.fileMap m = some f → env.nameOf f = m)
    (buildIndexStep_fileMap env targetFiles) allFiles
    { map := [], fileMap := [], standalone := [], targetMods := [] }
    (fun m f hx => by cases hx)

theorem bundlerBundle_inv {fuel : Nat} {env : Env} {libs : List Lib}
    {targets lookup ignore : List String} {dOn : Option (List String)} {mapDeps : Bool}
    {r : ChunkResult}
    (h : bundlerBundle fuel env libs targets lookup ignore dOn mapDeps = some (.ok r)) :
    ∃ r0 : SortOutcome,
      sortFilesCore fuel
        (buildIndex env lookup (targets.filter (fun f => !memb f ignore))).map
        (fun n => alookup
          (buildIndex env lookup (targets.filter (fun f => !memb f ignore))).fileMap n)
        (buildIndex env lookup (targets.filter (fun f => !memb f ignore))).standalone
        (buildIndex env lookup (targets.filter (fun f => !memb f ignore))).targetMods
        (ignoreLibsOf libs dOn) (ignore.map env.nameOf) dOn mapDeps libs = some (.ok r0) ∧
      r.files = r0.files ∧ r.modules = r0.files.map env.nameOf ∧
      r.notBundled = r0.notBundled := by
  cases hs : sortFilesCore fuel
      (buildIndex env lookup (targets.filter (fun f => !memb f ignore))).map
      (fun n => alookup
        (buildIndex env lookup (targets.filter (fun f => !memb f ignore))).fileMap n)
      (buildIndex env lookup (targets.filter (fun f => !memb f ignore))).standalone
      (buildIndex env lookup (targets.filter (fun f => !memb f ignore))).targetMods
      (ignoreLibsOf libs dOn) (ignore.map env.nameOf) dOn mapDeps libs with
  | none =>
    simp only [bundlerBundle, hs] at h
    cases h
  | some res =>
    cases res with
    | error e =>
      simp only [bundlerBundle, hs] at h
      cases h
    | ok r0 =>
      simp only [bundlerBundle, hs] at h
      cases h
      exact ⟨r0, rfl, rfl, rfl, rfl⟩

/-- A chunk bundled without a `dependentOn` filter materializes no file from
its ignore list: targets are filtered against it, and every resolved module
survived the ignore-module filter, whose names are exactly the names of the
ignored files. -/
theorem bundlerBundle_files_not_ignored {fuel : Nat} {env : Env} {libs : List Lib}
    {targets lookup ignore : List String} {mapDeps : Bool} {r : ChunkResult}
    (h : bundlerBundle fuel env libs targets lookup ignore none mapDeps = some (.ok r)) :
    ∀ f, f ∈ r.files → f ∉ ignore := by
  intro f hf hfi
  obtain ⟨r0, hs, hrf, hrm, hrn⟩ := bundlerBundle_inv h
  obtain ⟨allDep, depMods, st, ps, hdl, hw, hmods, hres, hfiles, hnb, hdep, hdd⟩ :=
    sortFilesCore_inv hs
  rw [hrf, hfiles] at hf
  rcases List.mem_append.mp hf with h1 | h1
  · have hstd := buildIndex_standalone env lookup (targets.filter (fun x => !memb x ignore))
      f h1
    have hmf : memb f ignore = false := by
      have := (List.mem_filter.mp hstd).2
      simpa using this
    rw [memb_iff.mpr hfi] at hmf
    cases hmf
  · rw [resolvePaths_ok_shape _ _ _ _ _ hres] at h1
    obtain ⟨m, hm, hfm⟩ := List.mem_filterMap.mp h1
    have hname : env.nameOf f = m :=
      buildIndex_fileMap env lookup (targets.filter (fun x => !memb x ignore)) m f hfm
    rw [hmods] at hm
    have hm2 : m ∈ pickedOrAll none st.picked
        (workingMods (buildIndex env lookup
          (targets.filter (fun x => !memb x ignore))).targetMods depMods
          (ignore.map env.nameOf)) :=
      (mem_sortByDepthDesc _ _ m).mp (List.mem_filter.mp hm).1
    have hmig : memb m (ignore.map env.nameOf) = false := by
      have := (List.mem_filter.mp hm2).2
      simpa [memb] using (List.mem_filter.mp hm2).2
    have hmem : m ∈ ignore.map env.nameOf := by
      rw [← hname]
      exact List.mem_map_of_mem env.nameOf hfi
    rw [memb_iff.mpr hmem] at hmig
    cases hmig

theorem runChunks_mainFiles (fuel : Nat) (env : Env) (libs : List Lib) :
    ∀ (cfgs : List ChunkCfg) (st stF : RunSt),
      runChunks fuel env libs cfgs false st = some (.ok stF) →
      stF.mainFiles = st.mainFiles := by
  intro cfgs
  induction cfgs with
  | nil =>
    intro st stF h
    cases h
    rfl
  | cons c0 cs ih =>
    intro st stF h
    cases hb : bundlerBundle fuel env libs c0.targets c0.lookup
        (st.mainFiles ++ if c0.noDuplicates = true then st.filesAcc else [])
        c0.dOn c0.mapDeps with
    | none =>
      simp only [runChunks, hb] at h
      cases h
    | some res =>
      cases res with
      | error e =>
        simp only [runChunks, hb] at h
        cases h
      | ok r =>
        simp only [runChunks, hb] at h
        have hmf := ih _ stF h
        exact hmf

/-- C7 (amended): in the orchestrated run, every chunk entry produced after
state `st` whose configuration carries no `dependentOn` filter materializes no
file of `st.mainFiles` (the main chunk's files), and, when the chunk requests
`noDuplicates`, no file of the accumulated `st.filesAcc` (every file of every
earlier chunk). Since `st` ranges over every intermediate state, this covers
both halves of the no-duplication claim for dependentOn-free chunks; a chunk
WITH a `dependentOn` filter can re-materialize such files (see the
counterexample), because picked modules bypass the ignore-module filter. -/
theorem c7_amended_no_duplication (fuel : Nat) (env : Env) (libs : List Lib) :
    ∀ (cfgs : List ChunkCfg) (st stF : RunSt),
      runChunks fuel env libs cfgs false st = some (.ok stF) →
      ∀ nm fs, (nm, fs) ∈ stF.outFiles → (nm, fs) ∉ st.outFiles →
      ∃ c, c ∈ cfgs ∧ c.name = nm ∧
        (c.dOn = none → ∀ f, f ∈ fs → f ∉ st.mainFiles ∧
          (c.noDuplicates = true → f ∉ st.filesAcc)) := by
  intro cfgs
  induction cfgs with
  | nil =>
    intro st stF h nm fs hmem hnew
    cases h
    exact absurd hmem hnew
  | cons c0 cs ih =>
    intro st stF h nm fs hmem hnew
    cases hb : bundlerBundle fuel env libs c0.targets c0.lookup
        (st.mainFiles ++ if c0.noDuplicates = true then st.filesAcc else [])
        c0.dOn c0.mapDeps with
    | none =>
      simp only [runChunks, hb] at h
      cases h
    | some res =>
      cases res with
      | error e =>
        simp only [runChunks, hb] at h
        cases h
      | ok r =>
        simp only [runChunks, hb] at h
        by_cases hcase : (nm, fs) ∈ st.outFiles ++ [(c0.name, r.files)]
        · rcases List.mem_append.mp hcase with h1 | h1
          · exact absurd h1 hnew
          · have heq := List.mem_singleton.mp h1
            cases heq
            refine ⟨c0, List.mem_cons_self _ _, rfl, ?_⟩
            intro hdOn f hf
            rw [hdOn] at hb
            have hni := bundlerBundle_files_not_ignored hb f hf
            constructor
            · intro hmf
              exact hni (List.mem_append_left _ hmf)
            · intro hnd hfa
              exact hni (List.mem_append_right _ (by rw [if_pos hnd]; exact hfa))
        · obtain ⟨c, hc, hcn, hcp⟩ := ih _ stF h nm fs hmem hcase
          refine ⟨c, List.mem_cons_of_mem _ hc, hcn, ?_⟩
          intro hdOn f hf
          have hcc := hcp hdOn f hf
          constructor
          · exact hcc.1
          · intro hnd hfa
            exact hcc.2 hnd (List.mem_append_left _ hfa)

/-- C7 counterexample: the file fM is materialized by the main chunk AND
re-materialized by the later chunk `extra`, although `extra` even requests
`noDuplicates`: its `dependentOn` filter picks the module M via the path
A, M, X, and picked modules bypass the ignore-module filtering that normally
enforces the no-duplication rule. -/
theorem c7_counterexample :
    ∃ p : RunSt × List (String × List String),
      runBundle 10 env7c [] cfgs7c [] = some (.ok p) ∧
      (alookup p.1.outFiles ("main")).getD [] = ["fM"] ∧
      (alookup p.1.outFiles ("extra")).getD [] = ["fM", "fA"] ∧
      ("fM" : String) ∈ (alookup p.1.outFiles ("extra")).getD [] := by
  refine ⟨({ mainFiles := ["fM"]
             filesAcc := ["fM", "fM", "fA"]
             outFiles := [("main", ["fM"]), ("extra", ["fM", "fA"])]
             outModules := [("main", ["M"]), ("extra", ["M", "A"])]
             outContents := [("main", "fM\n"), ("extra", "fM\nfA\n")]
             moduleChunk := [("M", "extra"), ("A", "extra")]
             chunkDirect := [("main", ["X"]), ("extra", ["X"])] }, []), rfl, rfl, rfl,
    by decide⟩

/-- Witness for the amended C7 at a concrete one-chunk continuation. -/
theorem c7_amended_no_duplication_witness :
    ∃ c, c ∈ [cfgW7] ∧ c.name = "one" ∧
      (c.dOn = none → ∀ f, f ∈ (["fa"] : List String) → f ∉ stW7.mainFiles ∧
        (c.noDuplicates = true → f ∉ stW7.filesAcc)) := by
  have h : runChunks 10 envW7 [] [cfgW7] false stW7 = some (.ok
      { mainFiles := ["f0"]
        filesAcc := ["f0", "fa"]
        outFiles := [("main", ["f0"]), ("one", ["fa"])]
        outModules := [("main", ["z"]), ("one", ["a"])]
        outContents := [("main", "c0"), ("one", "fa\n")]
        moduleChunk := [("a", "one")]
        chunkDirect := [("main", []), ("one", [])] }) := rfl
  exact c7_amended_no_duplication 10 envW7 [] [cfgW7] stW7 _ h ("one") ["fa"]
    (by decide) (by decide)

/-- C8 (amended): the instance field `this.mainBundleFiles` is NOT reset by
`bundle()` — a second invocation on the same instance starts with the first
run's main files as its ignore list, so (when the main chunk has no
`dependentOn` filter) the second run's main chunk materializes none of the
files the first run's main chunk produced; byte-identical reruns therefore
hold only across fresh instances, not across invocations of one instance. -/
theorem c8_amended_instance_state {fuel : Nat} {env : Env} {libs : List Lib}
    {c0 : ChunkCfg} {cs : List ChunkCfg} {inst : List String} {stF : RunSt}
    {ws : List (String × List String)}
    (h : runBundle fuel env libs (c0 :: cs) inst = some (.ok (stF, ws)))
    (hdOn : c0.dOn = none) :
    ∀ f, f ∈ stF.mainFiles → f ∉ inst := by
  intro f hf hfi
  cases hrc : runChunks fuel env libs (c0 :: cs) true (freshRun inst) with
  | none =>
    simp only [runBundle, hrc] at h
    cases h
  | some res =>
    cases res with
    | error e =>
      simp only [runBundle, hrc] at h
      cases h
    | ok st =>
      simp only [runBundle, hrc] at h
      cases h
      cases hb : bundlerBundle fuel env libs c0.targets c0.lookup
          ((freshRun inst).mainFiles ++
            if c0.noDuplicates = true then (freshRun inst).filesAcc else [])
          c0.dOn c0.mapDeps with
      | none =>
        simp only [runChunks, hb] at hrc
        cases hrc
      | some res2 =>
        cases res2 with
        | error e =>
          simp only [runChunks, hb] at hrc
          cases hrc
        | ok r =>
          simp only [runChunks, hb] at hrc
          have hmf := runChunks_mainFiles fuel env libs cs _ _ hrc
          rw [hdOn] at hb
          have hni := bundlerBundle_files_not_ignored hb f ?_
          · exact hni (List.mem_append_left _ hfi)
          · have : stF.mainFiles = r.files := hmf
            rw [this] at hf
            exact hf

/-- C8 counterexample: two invocations of `bundle()` on the same orchestrator
instance over an unchanged tree and configuration. The first run bundles both
modules (contents CM CN); the instance field `mainBundleFiles` keeps the first
run's files, so the second run filters them out and produces different
contents (CN only) and a different module list — the runs are not
byte-identical and the global state is not empty at the start of run two. -/
theorem c8_counterexample :
    ∃ p1 p2 : RunSt × List (String × List String),
      runBundle 10 env8c [] cfgs8c [] = some (.ok p1) ∧
      runBundle 10 env8c [] cfgs8c p1.1.mainFiles = some (.ok p2) ∧
      p1.1.outContents = [("main", "CM\nCN\n")] ∧
      p2.1.outContents = [("main", "")] ∧
      p1.1.outContents ≠ p2.1.outContents ∧
      p1.1.outModules ≠ p2.1.outModules := by
  refine ⟨({ mainFiles := ["fm", "fn"]
             filesAcc := ["fm", "fn"]
             outFiles := [("main", ["fm", "fn"])]
             outModules := [("main", ["m", "n"])]
             outContents := [("main", "CM\nCN\n")]
             moduleChunk := []
             chunkDirect := [("main", [])] }, []),
    ({ mainFiles := []
       filesAcc := []
       outFiles := [("main", [])]
       outModules := [("main", [])]
       outContents := [("main", "")]
       moduleChunk := []
       chunkDirect := [("main", [])] }, []),
    rfl, rfl, rfl, rfl, by decide, by decide⟩

/-- Witness for the amended C8: the second run's main chunk (files fn only)
contains none of the first run's main files. -/
theorem c8_amended_instance_state_witness :
    ("fn" : String) ∉ (["fm"] : List String) := by
  have h : runBundle 10 env8c [] cfgs8c ["fm"] = some (.ok
      ({ mainFiles := ["fn"]
         filesAcc := ["fn"]
         outFiles := [("main", ["fn"])]
         outModules := [("main", ["n"])]
         outContents := [("main", "CN\n")]
         moduleChunk := []
         chunkDirect := [("main", [])] }, [])) := rfl
  exact c8_amended_instance_state h (by decide) ("fn") (by decide)

theorem collectOwners_fold_mono (mc : List (String × String)) :
    ∀ (ds acc : List String) (x : String), x ∈ acc →
      x ∈ ds.foldl
        (fun a m =>
          match alookup mc m with
          | none => a
          | some ch => if memb ch a then a else a ++ [ch]) acc := by
  intro ds
  induction ds with
  | nil => intro acc x hx; exact hx
  | cons d dsx ih =>
    intro acc x hx
    simp only [List.foldl_cons]
    apply ih
    cases hl : alookup mc d with
    | none => exact hx
    | some ch =>
      show x ∈ (if memb ch acc then acc else acc ++ [ch])
      by_cases hm : memb ch acc = true
      · rw [if_pos hm]
        exact hx
      · rw [if_neg hm]
        exact List.mem_append_left _ hx

theorem collectOwners_fold_hit (mc : List (String × String)) :
    ∀ (ds acc : List String) (m A : String), m ∈ ds → alookup mc m = some A →
      A ∈ ds.foldl
        (fun a y =>
          match alookup mc y with
          | none => a
          | some ch => if memb ch a then a else a ++ [ch]) acc := by
  intro ds
  induction ds with
  | nil => intro acc m A hm; cases hm
  | cons d dsx ih =>
    intro acc m A hm hA
    simp only [List.foldl_cons]
    rcases List.mem_cons.mp hm with rfl | hm'
    · apply collectOwners_fold_mono
      rw [hA]
      show A ∈ (if memb A acc then acc else acc ++ [A])
      by_cases hmA : memb A acc = true
      · rw [if_pos hmA]
        exact memb_iff.mp hmA
      · rw [if_neg hmA]
        exact List.mem_append_right _ (List.mem_singleton.mpr rfl)
    · exact ih _ m A hm' hA

theorem collectOwners_hit (mc : List (String × String)) (ds : List String) (m A : String)
    (hm : m ∈ ds) (hA : alookup mc m = some A) : A ∈ collectOwners mc ds :=
  collectOwners_fold_hit mc ds [] m A hm hA

theorem ccw_cons (cd : List (String × List String)) (mc : List (String × String))
    (x : String) (xs : List String) :
    crossChunkWarnings (x :: xs) cd mc =
      if (collectOwners mc ((alookup cd x).getD [])).isEmpty = true
      then crossChunkWarnings xs cd mc
      else (x, collectOwners mc ((alookup cd x).getD [])) :: crossChunkWarnings xs cd mc := by
  simp only [crossChunkWarnings, List.filterMap_cons]
  by_cases hemp : (collectOwners mc ((alookup cd x).getD [])).isEmpty = true
  · rw [if_pos hemp, if_pos hemp]
  · rw [if_neg hemp, if_neg hemp]

theorem ccw_shape (cd : List (String × List String)) (mc : List (String × String)) :
    ∀ (xs : List String) (p : String × List String), p ∈ crossChunkWarnings xs cd mc →
      p.1 ∈ xs ∧ p.2 = collectOwners mc ((alookup cd p.1).getD []) := by
  intro xs
  induction xs with
  | nil => intro p hp; cases hp
  | cons x xs ih =>
    intro p hp
    rw [ccw_cons] at hp
    by_cases hemp : (collectOwners mc ((alookup cd x).getD [])).isEmpty = true
    · rw [if_pos hemp] at hp
      obtain ⟨h1, h2⟩ := ih p hp
      exact ⟨List.mem_cons_of_mem _ h1, h2⟩
    · rw [if_neg hemp] at hp
      rcases List.mem_cons.mp hp with rfl | hp'
      · exact ⟨List.mem_cons_self _ _, rfl⟩
      · obtain ⟨h1, h2⟩ := ih p hp'
        exact ⟨List.mem_cons_of_mem _ h1, h2⟩

theorem ccw_filter_ne (cd : List (String × List String)) (mc : List (String × String))
    (B : String) :
    ∀ xs, B ∉ xs → (crossChunkWarnings xs cd mc).filter (fun w => w.1 == B) = [] := by
  intro xs
  induction xs with
  | nil => intro _; rfl
  | cons x xs ih =>
    intro hB
    have h1 : x ≠ B := fun he => hB (by rw [he]; exact List.mem_cons_self _ _)
    have h2 : B ∉ xs := fun hm => hB (List.mem_cons_of_mem _ hm)
    rw [ccw_cons]
    by_cases hemp : (collectOwners mc ((alookup cd x).getD [])).isEmpty = true
    · rw [if_pos hemp]
      exact ih h2
    · rw [if_neg hemp]
      rw [List.filter_cons]
      rw [if_neg (fun hc => h1 (eq_of_beq hc))]
      exact ih h2

theorem ccw_count_one (cd : List (String × List String)) (mc : List (String × String))
    {B : String} {ds : List String} {m A : String}
    (hds : alookup cd B = some ds) (hm : m ∈ ds) (hA : alookup mc m = some A) :
    ∀ xs, xs.Nodup → B ∈ xs →
      ((crossChunkWarnings xs cd mc).filter (fun w => w.1 == B)).length = 1 := by
  have hchs : A ∈ collectOwners mc ((alookup cd B).getD []) := by
    rw [hds]
    exact collectOwners_hit mc ds m A hm hA
  have hne : (collectOwners mc ((alookup cd B).getD [])).isEmpty = false := by
    cases hcc : collectOwners mc ((alookup cd B).getD []) with
    | nil => rw [hcc] at hchs; cases hchs
    | cons a t => rfl
  intro xs
  induction xs with
  | nil => intro _ hB; cases hB
  | cons x xs ih =>
    intro hnd hB
    obtain ⟨hx_notin, hnd'⟩ := List.nodup_cons.mp hnd
    rw [ccw_cons]
    by_cases hxB : x = B
    · subst hxB
      rw [if_neg (by rw [hne]; exact Bool.false_ne_true)]
      rw [List.filter_cons]
      rw [if_pos (by simp)]
      simp only [List.length_cons]
      rw [ccw_filter_ne cd mc x xs hx_notin]
      rfl
    · have hB' : B ∈ xs := by
        rcases List.mem_cons.mp hB with he | hmem
        · exact absurd he.symm hxB
        · exact hmem
      by_cases hemp : (collectOwners mc ((alookup cd x).getD [])).isEmpty = true
      · rw [if_pos hemp]
        exact ih hnd' hB'
      · rw [if_neg hemp]
        rw [List.filter_cons]
        rw [if_neg (fun hc => hxB (eq_of_beq hc))]
        exact ih hnd' hB'

/-- C9: in a full run, when chunk B (non-main) has a direct dependency module
m owned — per the global module-to-chunk map — by a different chunk A, the
cross-chunk check emits exactly one warning entry for B, and every warning
entry for B names A among the owning chunks; the run result itself is
unaffected (the warnings are separate data, bundling proceeds). -/
theorem c9_cross_chunk_warning {fuel : Nat} {env : Env} {libs : List Lib}
    {cfgs : List ChunkCfg} {inst : List String} {stF : RunSt}
    {ws : List (String × List String)} {B A m : String} {ds : List String}
    (h : runBundle fuel env libs cfgs inst = some (.ok (stF, ws)))
    (hB : B ∈ (cfgs.map (fun c => c.name)).drop 1)
    (hnd : ((cfgs.map (fun c => c.name)).drop 1).Nodup)
    (hds : alookup stF.chunkDirect B = some ds)
    (hm : m ∈ ds)
    (hA : alookup stF.moduleChunk m = some A)
    (_hAB : A ≠ B) :
    (ws.filter (fun w => w.1 == B)).length = 1 ∧ ∀ l, (B, l) ∈ ws → A ∈ l := by
  cases hrc : runChunks fuel env libs cfgs true (freshRun inst) with
  | none =>
    simp only [runBundle, hrc] at h
    cases h
  | some res =>
    cases res with
    | error e =>
      simp only [runBundle, hrc] at h
      cases h
    | ok st =>
      simp only [runBundle, hrc] at h
      cases h
      constructor
      · exact ccw_count_one _ _ hds hm hA _ hnd hB
      · intro l hmem
        have hsh := (ccw_shape _ _ _ (B, l) hmem).2
        have hl : l = collectOwners _ ((alookup _ B).getD []) := hsh
        rw [hl, hds]
        exact collectOwners_hit _ ds m A hm hA

/-- Witness for C9 at the concrete three-chunk run: exactly one warning names
chunk two, listing chunk one. -/
theorem c9_cross_chunk_warning_witness :
    (([(("two" : String), ["one"])].filter (fun w => w.1 == "two")).length = 1) ∧
    ∀ l, (("two" : String), l) ∈ [(("two" : String), ["one"])] → ("one" : String) ∈ l := by
  have h : runBundle 10 env9c [] cfgs9c [] = some (.ok (st9c, [("two", ["one"])])) := rfl
  exact @c9_cross_chunk_warning 10 env9c [] cfgs9c [] st9c [("two", ["one"])] "two" "one"
    "a" ["a"] h (by decide) (by decide) (by decide) (by decide) (by decide) (by decide)

end EspoBundler
